import Mathlib

/-!
Verification of the conflict-resolution voting subsystem of karrot-backend
(`karrot/issues/models.py`): issues, voting rounds, options, votes, the
vote-submission operation `save_votes`, the tally `calculate_results`, and
the option actions.

Shallow embedding conventions:
* Database rows are records carrying their primary key (`id : Nat`).  A
  single counter `next_id` in the state plays the role of the database
  sequence; every freshly created row takes the current counter value.
* `timezone.now()` and datetime values are modelled as integers (only
  their ordering matters to the code under scrutiny).
* The Django `Sum` aggregate of the votes of an option is `none` when the
  option has no votes (SQL `SUM` of an empty set is `NULL`) and
  `some (sum of scores)` otherwise.
* `Voting.calculate_results` orders the options by
  `.order_by('_sum_score')`, i.e. ascending by the nullable sum.  On the
  production database (PostgreSQL) ascending `ORDER BY` places `NULL`
  last, so a `NULL` sum sorts above every numeric sum; `nullsLastLE`
  captures exactly that key order.  Rows with equal keys come back in an
  unspecified order; we model the query with a stable insertion sort and
  let the theorems quantify over the stored order of the option rows, so
  no conclusion below depends on how the database breaks ties.
* Usage-stat emissions (`karrot.issues.stats`) and signal broadcasts
  (`karrot.issues.signals`) are modelled as an event list returned next
  to the new state.
* Exceptions (`StopIteration` from `next(...)`, `IndexError` from
  `options[-1]`, `DoesNotExist` from `groupmembership_set.get`) are
  modelled by returning `none`.
-/

/-- `OptionTypes` enum from the source: the three fixed resolution
choices of a voting round. -/
inductive OptionType
  | further_discussion
  | no_change
  | remove_user
deriving DecidableEq, Repr

/-- `IssueStatus` enum from the source. -/
inductive IssueStatus
  | ongoing
  | decided
  | cancelled
deriving DecidableEq, Repr

/-- A row of the `Vote` model: one user's integer score for one option.
`option` stores the id of the option row the vote belongs to. -/
structure Vote where
  id : Nat
  user : Nat
  option : Nat
  score : Int
deriving DecidableEq, Repr

/-- A row of the `Option` model (named `VotingOption` here because `Option`
is taken by the Lean prelude): parent voting round is implicit in the
containing `Voting` record; `sum_score` is the nullable aggregate written
at tally time. -/
structure VotingOption where
  id : Nat
  type : OptionType
  sum_score : Option Int
deriving DecidableEq, Repr

/-- A row of the `Voting` model: a voting round of an issue.  The
`expires_at` column is advisory (read only by `is_expired` and the
`due_soon` queryset, neither of which the tally logic consults), so it is
modelled as a standalone integer parameter of `is_expired` rather than a
field threaded through every round. -/
structure Voting where
  id : Nat
  options : List VotingOption
  accepted_option : Option Nat
deriving DecidableEq, Repr

/-- The persistent state of one `Issue` together with the rows that hang
off it: its voting rounds, the vote ledger, and the bit of
group-membership state the `remove_user` action touches.
`member_present` is true while the affected user still has a group
membership row.  `next_id` is the database id sequence. -/
structure IssueState where
  status : IssueStatus
  votings : List Voting
  votes : List Vote
  member_present : Bool
  next_id : Nat
deriving DecidableEq, Repr

/-- Usage-stat emissions and signal broadcasts performed by the
operations, in program order. -/
inductive Event
  | stats_issue_created
  | stats_voted
  | stats_vote_changed
  | stats_vote_deleted
  | signal_issue_changed
  | history_member_removed
deriving DecidableEq, Repr

/-- `Voting.is_expired`: `self.expires_at < timezone.now()`. -/
def is_expired (expires_at now : Int) : Bool :=
  expires_at < now

/-- `Voting.create_options`: create the three option rows, in source
order, with `sum_score` left at its null default.  Returns the rows and
the advanced id sequence. -/
def create_options (nextId : Nat) : List VotingOption × Nat :=
  ([⟨nextId, OptionType.further_discussion, none⟩,
    ⟨nextId + 1, OptionType.no_change, none⟩,
    ⟨nextId + 2, OptionType.remove_user, none⟩], nextId + 3)

/-- `Issue.save` on a fresh row (`self.pk is None`): persist the issue
with its `ongoing` default status, create the first voting round with its
options since `self.votings.count() == 0`, then emit the "issue created"
usage stat and the "issue changed" broadcast. -/
def createIssue : IssueState × List Event :=
  let (opts, n) := create_options 1
  ({ status := IssueStatus.ongoing,
     votings := [⟨0, opts, none⟩],
     votes := [],
     member_present := true,
     next_id := n },
   [Event.stats_issue_created, Event.signal_issue_changed])

/-- `Issue.cancel`: set the status to `cancelled` and broadcast
"issue changed".  (The nested `save` cannot create a voting round here:
every reachable issue already owns at least one round.) -/
def cancelIssue (st : IssueState) : IssueState × List Event :=
  ({ st with status := IssueStatus.cancelled }, [Event.signal_issue_changed])

/-- Look up a voting round of the issue by id (row fetch). -/
def findVoting (st : IssueState) (vid : Nat) : Option Voting :=
  st.votings.find? (fun v => v.id = vid)

/-- The ids of the option rows of a round. -/
def optionIds (v : Voting) : List Nat :=
  v.options.map VotingOption.id

/-- `Vote.objects.filter(option__voting=self, user=user)`: the user's
existing votes in the round. -/
def votesInVoting (st : IssueState) (v : Voting) (user : Nat) : List Vote :=
  st.votes.filter (fun w => decide (w.user = user ∧ w.option ∈ optionIds v))

/-- The loop body of `Voting.save_votes`.  `prior` is the dict
`{vote.option_id: vote for vote in Vote.objects.filter(...)}`, computed
once before the loop (under the database's one-vote-per-(user, option)
constraint the dict lookup is the unique match, modelled with `find?`).
Walks `vote_data` in order; threads the vote ledger and the id sequence;
returns `(ledger, next id, created, existing)` with `created` and
`existing` in append order as in the source. -/
def saveVotesLoop (user : Nat) (prior : List Vote) :
    List (Nat × Int) → Nat → List Vote → List Vote × Nat × List Vote × List Vote
  | [], nid, ledger => (ledger, nid, [], [])
  | (oid, score) :: rest, nid, ledger =>
    match prior.find? (fun w => w.option = oid) with
    | some pv =>
      if pv.score = score then
        -- identical score: left untouched, counted as existing
        let r := saveVotesLoop user prior rest nid ledger
        (r.1, r.2.1, r.2.2.1, pv :: r.2.2.2)
      else
        -- differing score: vote.delete() then Vote.objects.create(**data)
        let nv : Vote := ⟨nid, user, oid, score⟩
        let r := saveVotesLoop user prior rest (nid + 1)
          ((ledger.filter (fun w => decide ¬ w.id = pv.id)) ++ [nv])
        (r.1, r.2.1, nv :: r.2.2.1, r.2.2.2)
    | none =>
      -- no previous vote on this option: Vote.objects.create(**data)
      let nv : Vote := ⟨nid, user, oid, score⟩
      let r := saveVotesLoop user prior rest (nid + 1) (ledger ++ [nv])
      (r.1, r.2.1, nv :: r.2.2.1, r.2.2.2)

/-- `Voting.save_votes(user, vote_data)`.  `vote_data` is the dict
option-id → score, modelled as an association list (dict keys are
distinct; theorems carry that as a hypothesis).  Returns the new state,
the returned list `created + existing`, and the emitted events. -/
def save_votes (st : IssueState) (vid : Nat) (user : Nat)
    (data : List (Nat × Int)) : Option (IssueState × List Vote × List Event) := do
  let v ← findVoting st vid
  let prior := votesInVoting st v user
  let r := saveVotesLoop user prior data st.next_id st.votes
  let created := r.2.2.1
  let events :=
    (if prior.length = 0 then [Event.stats_voted]
     else if created.length > 0 then [Event.stats_vote_changed]
     else [])
    ++ (if created.length > 0 then [Event.signal_issue_changed] else [])
  some ({ st with votes := r.1, next_id := r.2.1 }, created ++ r.2.2.2, events)

/-- `Voting.delete_votes(user)`: delete all of the user's votes in the
round; report whether any row went away, emitting the events if so. -/
def delete_votes (st : IssueState) (vid : Nat) (user : Nat) :
    Option (IssueState × Bool × List Event) := do
  let v ← findVoting st vid
  let remaining :=
    st.votes.filter (fun w => decide ¬ (w.user = user ∧ w.option ∈ optionIds v))
  let deleted := remaining.length < st.votes.length
  some ({ st with votes := remaining },
        deleted,
        if deleted then [Event.stats_vote_deleted, Event.signal_issue_changed] else [])

/-- The annotated `Sum('votes__score')` of one option: `NULL` when the
option has no votes, otherwise the integer sum of its votes' scores. -/
def sumScore (st : IssueState) (oid : Nat) : Option Int :=
  match st.votes.filter (fun w => decide (w.option = oid)) with
  | [] => none
  | vs => some (vs.map Vote.score).sum

/-- The ascending key order produced by `.order_by('_sum_score')` on the
production database: numeric sums ascending, `NULL` sums after every
numeric sum (PostgreSQL sorts `NULL` last in ascending order). -/
def nullsLastLEb : Option Int → Option Int → Bool
  | some x, some y => x ≤ y
  | some _, none => true
  | none, some _ => false
  | none, none => true

/-- Propositional form of `nullsLastLEb`. -/
def nullsLastLE (a b : Option Int) : Prop :=
  nullsLastLEb a b = true

instance : DecidableRel nullsLastLE := fun a b =>
  inferInstanceAs (Decidable (nullsLastLEb a b = true))

/-- Comparison of two option rows by their annotated sum. -/
def optionLE (a b : VotingOption) : Prop :=
  nullsLastLE a.sum_score b.sum_score

instance : DecidableRel optionLE := fun a b =>
  inferInstanceAs (Decidable (nullsLastLE a.sum_score b.sum_score))

instance : IsTotal (Option Int) nullsLastLE :=
  ⟨by
    intro a b
    cases a <;> cases b <;> simp [nullsLastLE, nullsLastLEb] <;> omega⟩

instance : IsTrans (Option Int) nullsLastLE :=
  ⟨by
    intro a b c hab hbc
    cases a <;> cases b <;> cases c <;>
      simp_all [nullsLastLE, nullsLastLEb] <;> omega⟩

instance : IsTotal VotingOption optionLE :=
  ⟨fun a b => IsTotal.total (r := nullsLastLE) a.sum_score b.sum_score⟩

instance : IsTrans VotingOption optionLE :=
  ⟨fun _ _ _ hab hbc => IsTrans.trans (r := nullsLastLE) _ _ _ hab hbc⟩

/-- The option rows of a round with their sums computed, in stored order:
`self.options.annotate(_sum_score=Sum('votes__score'))` followed by the
per-row assignment `option.sum_score = option._sum_score`. -/
def annotate (st : IssueState) (v : Voting) : List VotingOption :=
  v.options.map (fun o => { o with sum_score := sumScore st o.id })

/-- Clone option rows onto fresh ids with the null `sum_score` default:
the loop body of `Option._further_discussion`. -/
def cloneOptions : List VotingOption → Nat → List VotingOption × Nat
  | [], n => ([], n)
  | o :: rest, n =>
    let r := cloneOptions rest (n + 1)
    (⟨n, o.type, none⟩ :: r.1, r.2)

/-- `Option._further_discussion`: create a new round on the same issue
and clone the current round's option types onto fresh, unscored option
rows. -/
def further_discussion (st : IssueState) (v : Voting) : IssueState :=
  let r := cloneOptions v.options (st.next_id + 1)
  { st with
    votings := st.votings ++ [⟨st.next_id, r.1, none⟩],
    next_id := r.2 }

/-- `Option.do_action` for the accepted option `opt` of round `v`:
issues that did not vote to keep talking are decided; the
further-discussion action opens a replacement round; the remove-user
action deletes the membership row (`.get` raises when it is already
gone, modelled as `none`) and appends the history entry; every path ends
with the "issue changed" broadcast. -/
def do_action (st : IssueState) (v : Voting) (opt : VotingOption) :
    Option (IssueState × List Event) :=
  let st1 :=
    if opt.type ≠ OptionType.further_discussion
    then { st with status := IssueStatus.decided }
    else st
  match opt.type with
  | OptionType.further_discussion =>
    some (further_discussion st1 v, [Event.signal_issue_changed])
  | OptionType.no_change =>
    some (st1, [Event.signal_issue_changed])
  | OptionType.remove_user =>
    if st1.member_present then
      some ({ st1 with member_present := false },
            [Event.history_member_removed, Event.signal_issue_changed])
    else none

/-- Winner selection of `Voting.calculate_results` on the sorted option
rows: `options[-1]` is the winner unless `options[-2]` carries an equal
sum, in which case `next(o for o in options if o.type == FURTHER_DISCUSSION)`
is taken.  `none` models `IndexError` (fewer than two rows) and
`StopIteration` (no further-discussion row on a tie). -/
def chooseAccepted (sorted : List VotingOption) : Option VotingOption :=
  match sorted.reverse with
  | last :: second :: _ =>
    if second.sum_score = last.sum_score
    then sorted.find? (fun o => o.type = OptionType.further_discussion)
    else some last
  | _ => none

/-- `Voting.calculate_results`: annotate each option with the sum of its
votes' scores and save it; order the options ascending by that sum; pick
the accepted option per `chooseAccepted`; persist the sums and the
accepted option; run the accepted option's action. -/
def calculate_results (st : IssueState) (vid : Nat) :
    Option (IssueState × List Event) := do
  let v ← findVoting st vid
  let ann := annotate st v
  let accepted ← chooseAccepted (List.insertionSort optionLE ann)
  let vNew : Voting := { v with options := ann, accepted_option := some accepted.id }
  let st1 := { st with votings := st.votings.map (fun w => if w.id = vid then vNew else w) }
  do_action st1 vNew accepted

/-! ### Well-formedness of the vote ledger and the reachable-state machine -/

/-- The database constraints on the `Vote` table: the primary key is
unique, and `unique_together = ('user', 'option')` admits at most one
vote per user and option. -/
def UniqueVotes (l : List Vote) : Prop :=
  ∀ w1 ∈ l, ∀ w2 ∈ l,
    (w1.id = w2.id ∨ (w1.user = w2.user ∧ w1.option = w2.option)) → w1 = w2

/-- Discipline of the database id sequence: every stored row's id is
below the sequence's next value. -/
def IdsBelow (l : List Vote) (n : Nat) : Prop :=
  ∀ w ∈ l, w.id < n

/-- The user already holds a vote with this exact option and score among
`prior` (the branch of `save_votes` that leaves the row untouched). -/
def hasMatch (prior : List Vote) (oid : Nat) (s : Int) : Prop :=
  ∃ pv ∈ prior, pv.option = oid ∧ pv.score = s

/-- The number of voting rounds of the issue that have not been tallied
yet (no accepted option). -/
def openRounds (st : IssueState) : Nat :=
  (st.votings.filter (fun v => decide (v.accepted_option = none))).length

/-- One externally triggered operation on an issue: a vote submission, a
tally of a round that has not been tallied yet (the scheduler in
`karrot/issues/tasks.py` processes rounds with
`accepted_option__isnull=True`), or a cancellation. -/
inductive IssueStep : IssueState → IssueState → Prop
  | save_votes (st : IssueState) (vid user : Nat) (data : List (Nat × Int))
      (st2 : IssueState) (r : List Vote) (evs : List Event) :
      save_votes st vid user data = some (st2, r, evs) → IssueStep st st2
  | tally (st : IssueState) (vid : Nat) (v : Voting) (st2 : IssueState) (evs : List Event) :
      findVoting st vid = some v → v.accepted_option = none →
      calculate_results st vid = some (st2, evs) → IssueStep st st2
  | cancel (st : IssueState) : IssueStep st (cancelIssue st).1

/-- The states an issue can be in after its creating save and any run of
vote submissions, tallies and cancellations. -/
def ReachableIssue (st : IssueState) : Prop :=
  Relation.ReflTransGen IssueStep createIssue.1 st

/-! ### Concrete states used by witnesses and counterexamples -/

/-- The freshly created issue (result of `createIssue`), spelled out. -/
def freshIssue : IssueState :=
  { status := IssueStatus.ongoing,
    votings := [⟨0, [⟨1, OptionType.further_discussion, none⟩,
                     ⟨2, OptionType.no_change, none⟩,
                     ⟨3, OptionType.remove_user, none⟩], none⟩],
    votes := [],
    member_present := true,
    next_id := 4 }

/-- `freshIssue` after user 9 voted score 1 on the further-discussion
option (option id 1) through `save_votes`. -/
def issueAfterVote1 : IssueState :=
  { freshIssue with votes := [⟨4, 9, 1, 1⟩], next_id := 5 }

/-- `issueAfterVote1` after user 9 additionally voted score 2 on the
no-change option (option id 2) through `save_votes`. -/
def issueAfterVote2 : IssueState :=
  { freshIssue with votes := [⟨4, 9, 1, 1⟩, ⟨5, 9, 2, 2⟩], next_id := 6 }

/-- `freshIssue` after user 42 scored the three options 1, 7 and 2
through one `save_votes` call. -/
def issueScored172 : IssueState :=
  { freshIssue with
    votes := [⟨4, 42, 1, 1⟩, ⟨5, 42, 2, 7⟩, ⟨6, 42, 3, 2⟩],
    next_id := 7 }

/-- `issueScored172` after the tally: no-change (sum 7) is accepted and
the issue is decided. -/
def issueDecided172 : IssueState :=
  { status := IssueStatus.decided,
    votings := [⟨0, [⟨1, OptionType.further_discussion, some 1⟩,
                     ⟨2, OptionType.no_change, some 7⟩,
                     ⟨3, OptionType.remove_user, some 2⟩], some 2⟩],
    votes := [⟨4, 42, 1, 1⟩, ⟨5, 42, 2, 7⟩, ⟨6, 42, 3, 2⟩],
    member_present := true,
    next_id := 7 }

/-- `freshIssue` after user 42 scored only no-change with 7 and
remove-user with 2, leaving further-discussion without any vote. -/
def issuePartial72 : IssueState :=
  { freshIssue with
    votes := [⟨4, 42, 2, 7⟩, ⟨5, 42, 3, 2⟩],
    next_id := 6 }

/-- The result state of tallying `issuePartial72`: the vote-less
further-discussion option (null sum, sorted last) is accepted, a fresh
round is opened, and the issue stays ongoing. -/
def issuePartialTallied : IssueState :=
  { status := IssueStatus.ongoing,
    votings := [⟨0, [⟨1, OptionType.further_discussion, none⟩,
                     ⟨2, OptionType.no_change, some 7⟩,
                     ⟨3, OptionType.remove_user, some 2⟩], some 1⟩,
                ⟨6, [⟨7, OptionType.further_discussion, none⟩,
                     ⟨8, OptionType.no_change, none⟩,
                     ⟨9, OptionType.remove_user, none⟩], none⟩],
    votes := [⟨4, 42, 2, 7⟩, ⟨5, 42, 3, 2⟩],
    member_present := true,
    next_id := 10 }

/-- `freshIssue` after user 42 scored the three options 5, 5 and 3: the
top two options tie at 5. -/
def issueScored553 : IssueState :=
  { freshIssue with
    votes := [⟨4, 42, 1, 5⟩, ⟨5, 42, 2, 5⟩, ⟨6, 42, 3, 3⟩],
    next_id := 7 }

/-! ### General lemmas about the operations -/

/-- A successful `save_votes` call touches only the vote ledger and the
id sequence: rounds, status and membership are untouched. -/
theorem save_votes_frame (st : IssueState) (vid user : Nat)
    (data : List (Nat × Int)) (st2 : IssueState) (r : List Vote) (evs : List Event)
    (h : save_votes st vid user data = some (st2, r, evs)) :
    st2.votings = st.votings ∧ st2.status = st.status ∧
    st2.member_present = st.member_present := by
  cases hfv : findVoting st vid with
  | none => simp [save_votes, hfv] at h
  | some v =>
    simp only [save_votes, hfv, Option.bind_eq_bind, Option.some_bind,
      Option.some.injEq] at h
    obtain ⟨hst, -, -⟩ := Prod.mk.injEq .. ▸ h
    subst hst
    exact ⟨rfl, rfl, rfl⟩

/-- C8: a freshly created issue carries exactly one voting round, that
round is untallied and has exactly the three fixed option types with
null sums, the issue is ongoing, and the creating save emits the
"issue created" stat and the "issue changed" broadcast. -/
theorem createIssue_one_round_three_options :
    createIssue.1.status = IssueStatus.ongoing ∧
    createIssue.1.votings.length = 1 ∧
    (∀ v ∈ createIssue.1.votings,
      v.accepted_option = none ∧
      v.options.map VotingOption.type =
        [OptionType.further_discussion, OptionType.no_change, OptionType.remove_user] ∧
      ∀ o ∈ v.options, o.sum_score = none) ∧
    createIssue.2 = [Event.stats_issue_created, Event.signal_issue_changed] := by
  decide

/-- C9 (amended): `is_expired` is true iff the current time is strictly
after the expiry timestamp; a round whose expiry equals the current time
does not count as expired. -/
theorem is_expired_iff_strictly_after (e n : Int) :
    (is_expired e n = true ↔ e < n) ∧ is_expired e e = false := by
  constructor
  · simp [is_expired]
  · simp [is_expired]

/-- C9 counterexample: at `now = expires_at` the code reports the round
as not expired, although the current time is ≥ the expiry timestamp. -/
theorem is_expired_false_at_boundary :
    is_expired 0 0 = false ∧ (0 : Int) ≥ 0 := by
  decide

/-- C10: a `save_votes` call by a user with no prior votes in the round
emits the "first vote" usage stat even when `vote_data` is empty, while
creating no vote, sending no "issue changed" broadcast, changing no
state, and returning the empty vote set. -/
theorem save_votes_empty_data_first_vote (st : IssueState) (vid user : Nat)
    (v : Voting) (hv : findVoting st vid = some v)
    (hnone : votesInVoting st v user = []) :
    save_votes st vid user [] = some (st, [], [Event.stats_voted]) := by
  simp [save_votes, hv, hnone, saveVotesLoop]

/-- Witness for C10 at a concrete fresh issue and user. -/
theorem save_votes_empty_data_first_vote_witness :
    save_votes freshIssue 0 7 [] = some (freshIssue, [], [Event.stats_voted]) :=
  save_votes_empty_data_first_vote freshIssue 0 7
    ⟨0, [⟨1, OptionType.further_discussion, none⟩, ⟨2, OptionType.no_change, none⟩,
         ⟨3, OptionType.remove_user, none⟩], none⟩ (by decide) (by decide)

/-- Cloned option rows keep the source rows' types in order, are
unscored, and take consecutive fresh ids starting at `n`. -/
theorem cloneOptions_spec (l : List VotingOption) (n : Nat) :
    (cloneOptions l n).1.map VotingOption.type = l.map VotingOption.type ∧
    (∀ o ∈ (cloneOptions l n).1, o.sum_score = none ∧ n ≤ o.id) ∧
    (cloneOptions l n).2 = n + l.length := by
  induction l generalizing n with
  | nil => simp [cloneOptions]
  | cons o rest ih =>
    obtain ⟨h1, h2, h3⟩ := ih (n + 1)
    refine ⟨by simp [cloneOptions, h1], ?_, by simp [cloneOptions, h3]; omega⟩
    intro x hx
    simp only [cloneOptions, List.mem_cons] at hx
    rcases hx with rfl | hx
    · exact ⟨rfl, Nat.le_refl n⟩
    · obtain ⟨hs, hn⟩ := h2 x hx
      exact ⟨hs, Nat.le_of_succ_le hn⟩

/-- C7: when the further-discussion option's action runs on an ongoing
issue whose round has the three fixed option types, a new round is
appended on the same issue with three fresh (id at least the current
sequence value), unscored options of the same three types, and the issue
remains ongoing. -/
theorem do_action_further_discussion
    (st : IssueState) (v : Voting) (opt : VotingOption)
    (htype : opt.type = OptionType.further_discussion)
    (hstatus : st.status = IssueStatus.ongoing)
    (htypes : v.options.map VotingOption.type =
      [OptionType.further_discussion, OptionType.no_change, OptionType.remove_user]) :
    ∃ st2 nv,
      do_action st v opt = some (st2, [Event.signal_issue_changed]) ∧
      st2.votings = st.votings ++ [nv] ∧
      st2.status = IssueStatus.ongoing ∧
      st2.votes = st.votes ∧
      nv.id = st.next_id ∧
      nv.accepted_option = none ∧
      nv.options.map VotingOption.type = v.options.map VotingOption.type ∧
      nv.options.length = 3 ∧
      ∀ o ∈ nv.options, o.sum_score = none ∧ st.next_id < o.id := by
  obtain ⟨h1, h2, h3⟩ := cloneOptions_spec v.options (st.next_id + 1)
  refine ⟨further_discussion st v,
    ⟨st.next_id, (cloneOptions v.options (st.next_id + 1)).1, none⟩,
    ?_, rfl, hstatus, rfl, rfl, rfl, h1, ?_, ?_⟩
  · simp [do_action, htype]
  · have := congrArg List.length h1
    simp only [List.length_map] at this
    rw [this]
    have hlen := congrArg List.length htypes
    simpa using hlen
  · intro o ho
    obtain ⟨hs, hn⟩ := h2 o ho
    exact ⟨hs, Nat.lt_of_succ_le hn⟩

/-- Witness for C7: the tie round of `freshIssue` continues discussion,
producing a fresh unscored round while the issue stays ongoing. -/
theorem do_action_further_discussion_witness :
    ∃ st2 nv,
      do_action freshIssue
        ⟨0, [⟨1, OptionType.further_discussion, none⟩, ⟨2, OptionType.no_change, none⟩,
             ⟨3, OptionType.remove_user, none⟩], none⟩
        ⟨1, OptionType.further_discussion, none⟩ = some (st2, [Event.signal_issue_changed]) ∧
      st2.votings = freshIssue.votings ++ [nv] ∧
      st2.status = IssueStatus.ongoing ∧
      st2.votes = freshIssue.votes ∧
      nv.id = freshIssue.next_id ∧
      nv.accepted_option = none ∧
      nv.options.map VotingOption.type =
        ([⟨1, OptionType.further_discussion, none⟩, ⟨2, OptionType.no_change, none⟩,
          ⟨3, OptionType.remove_user, none⟩] : List VotingOption).map VotingOption.type ∧
      nv.options.length = 3 ∧
      ∀ o ∈ nv.options, o.sum_score = none ∧ freshIssue.next_id < o.id :=
  do_action_further_discussion freshIssue
    ⟨0, [⟨1, OptionType.further_discussion, none⟩, ⟨2, OptionType.no_change, none⟩,
         ⟨3, OptionType.remove_user, none⟩], none⟩
    ⟨1, OptionType.further_discussion, none⟩ (by decide) (by decide) (by decide)

/-- Antisymmetry of the sort key order at a numeric key: a key below and
above `some M` is exactly `some M`. -/
theorem nullsLastLE_antisymm_at (k : Option Int) (M : Int)
    (h1 : nullsLastLE k (some M)) (h2 : nullsLastLE (some M) k) : k = some M := by
  cases k with
  | none => simp [nullsLastLE, nullsLastLEb] at h1
  | some x =>
    simp only [nullsLastLE, nullsLastLEb, decide_eq_true_eq] at h1 h2
    exact congrArg some (le_antisymm h1 h2)

/-- Splitting a sorted list at its last two elements: every element is
below the last one, and every earlier element is below the second-last
one. -/
theorem sorted_last_two (s : List VotingOption) (hs : List.Sorted optionLE s)
    (a b : VotingOption) (t : List VotingOption) (hrev : s.reverse = a :: b :: t) :
    s = (t.reverse ++ [b]) ++ [a] ∧
    (∀ x ∈ s, optionLE x a) ∧ (∀ x ∈ t.reverse, optionLE x b) ∧
    a ∈ s ∧ b ∈ s := by
  have hseq : s = (t.reverse ++ [b]) ++ [a] := by
    have h0 := congrArg List.reverse hrev
    simpa [List.reverse_cons, List.append_assoc] using h0
  have hpw : List.Pairwise optionLE ((t.reverse ++ [b]) ++ [a]) := hseq ▸ hs
  rw [List.pairwise_append] at hpw
  obtain ⟨hpre, -, hlast⟩ := hpw
  rw [List.pairwise_append] at hpre
  obtain ⟨-, -, hmid⟩ := hpre
  refine ⟨hseq, ?_, ?_, ?_, ?_⟩
  · intro x hx
    rw [hseq, List.mem_append] at hx
    rcases hx with hx | hx
    · exact hlast x hx a (List.mem_singleton_self a)
    · rw [List.mem_singleton] at hx
      subst hx
      exact IsTotal.total (r := optionLE) x x |>.elim id id
  · intro x hx
    exact hmid x hx b (List.mem_singleton_self b)
  · rw [hseq]
    simp
  · rw [hseq]
    simp

/-- If every option row of `ann` carries a numeric sum at most `M` and at
least two rows attain `M`, then the last two rows of the ascending
insertion sort of `ann` both carry the sum `M`. -/
theorem insertionSort_top_two_eq (ann : List VotingOption) (M : Int)
    (hall : ∀ o ∈ ann, ∃ x, o.sum_score = some x ∧ x ≤ M)
    (htwo : 2 ≤ ann.countP (fun o => decide (o.sum_score = some M))) :
    ∃ a b t, (List.insertionSort optionLE ann).reverse = a :: b :: t ∧
      a.sum_score = some M ∧ b.sum_score = some M := by
  set s := List.insertionSort optionLE ann with hsdef
  have hsort : List.Sorted optionLE s := List.sorted_insertionSort optionLE ann
  have hperm : List.Perm s ann := List.perm_insertionSort optionLE ann
  have hle : ∀ o ∈ s, nullsLastLE o.sum_score (some M) := by
    intro o ho
    obtain ⟨x, hx, hxM⟩ := hall o (hperm.mem_iff.mp ho)
    simp [nullsLastLE, nullsLastLEb, hx, hxM]
  have hcount : 2 ≤ s.countP (fun o => decide (o.sum_score = some M)) := by
    rw [hperm.countP_eq]
    exact htwo
  have hlen2 : 2 ≤ s.length :=
    le_trans hcount (List.countP_le_length _)
  obtain ⟨a, b, t, hrev⟩ : ∃ a b t, s.reverse = a :: b :: t := by
    match hsr : s.reverse with
    | [] =>
      rw [← List.length_reverse, hsr] at hlen2
      simp at hlen2
    | [a] =>
      rw [← List.length_reverse, hsr] at hlen2
      simp at hlen2
    | a :: b :: t => exact ⟨a, b, t, rfl⟩
  obtain ⟨hseq, hbelow_a, hbelow_b, ha_mem, hb_mem⟩ :=
    sorted_last_two s hsort a b t hrev
  have hattain : ∃ o ∈ s, o.sum_score = some M := by
    have hpos : 0 < s.countP (fun o => decide (o.sum_score = some M)) := by omega
    obtain ⟨o, ho, hpo⟩ := List.countP_pos.mp hpos
    exact ⟨o, ho, of_decide_eq_true hpo⟩
  have haM : a.sum_score = some M := by
    obtain ⟨o, ho, hoM⟩ := hattain
    have h1 := hbelow_a o ho
    rw [optionLE, hoM] at h1
    exact nullsLastLE_antisymm_at a.sum_score M (hle a ha_mem) h1
  have hbM : b.sum_score = some M := by
    have hsplit := congrArg (List.countP (fun o => decide (o.sum_score = some M))) hseq
    rw [List.countP_append, List.countP_append] at hsplit
    have hca : List.countP (fun o => decide (o.sum_score = some M)) [a] = 1 := by
      simp [haM]
    rw [hca] at hsplit
    have hmid_pos :
        0 < List.countP (fun o => decide (o.sum_score = some M)) t.reverse +
            List.countP (fun o => decide (o.sum_score = some M)) [b] := by omega
    by_cases hbM0 : b.sum_score = some M
    · exact hbM0
    · have hcb : List.countP (fun o => decide (o.sum_score = some M)) [b] = 0 := by
        simp [hbM0]
      rw [hcb] at hmid_pos
      simp only [Nat.add_zero] at hmid_pos
      obtain ⟨o, ho, hpo⟩ := List.countP_pos.mp hmid_pos
      have h1 := hbelow_b o ho
      rw [optionLE, of_decide_eq_true hpo] at h1
      exact nullsLastLE_antisymm_at b.sum_score M (hle b hb_mem) h1
  exact ⟨a, b, t, hrev, haM, hbM⟩

/-- A hit of `find?` in the left part of an append stays the hit of the
whole append. -/
theorem find?_append_some {α : Type} (p : α → Bool) (l1 l2 : List α) (x : α)
    (h : l1.find? p = some x) : (l1 ++ l2).find? p = some x := by
  induction l1 with
  | nil => simp at h
  | cons a t ih =>
    by_cases hp : p a = true
    · rw [List.find?_cons_of_pos _ hp] at h
      rw [List.cons_append, List.find?_cons_of_pos _ hp]
      exact h
    · rw [List.find?_cons_of_neg _ (by simpa using hp)] at h
      rw [List.cons_append, List.find?_cons_of_neg _ (by simpa using hp)]
      exact ih h

/-- If some element of the list satisfies `p`, `find?` returns a hit,
and the hit satisfies `p` and belongs to the list. -/
theorem find?_of_exists {α : Type} (p : α → Bool) (l : List α)
    (h : ∃ x ∈ l, p x = true) : ∃ y, l.find? p = some y ∧ p y = true ∧ y ∈ l := by
  induction l with
  | nil => simp at h
  | cons a t ih =>
    by_cases hp : p a = true
    · exact ⟨a, List.find?_cons_of_pos _ hp, hp, List.mem_cons_self a t⟩
    · obtain ⟨x, hx, hpx⟩ := h
      rw [List.mem_cons] at hx
      rcases hx with rfl | hx
      · exact absurd hpx hp
      · obtain ⟨y, hy, hpy, hmy⟩ := ih ⟨x, hx, hpx⟩
        exact ⟨y, by rw [List.find?_cons_of_neg _ (by simpa using hp)]; exact hy,
               hpy, List.mem_cons_of_mem a hmy⟩

/-- Replacing the round with id `vid` in the round list keeps it the
`find?` hit for `vid`. -/
theorem find?_map_replace (l : List Voting) (vid : Nat) (vNew v : Voting)
    (h : l.find? (fun w => decide (w.id = vid)) = some v) (hid : vNew.id = vid) :
    (l.map (fun w => if w.id = vid then vNew else w)).find?
      (fun w => decide (w.id = vid)) = some vNew := by
  induction l with
  | nil => simp at h
  | cons w t ih =>
    by_cases hw : w.id = vid
    · rw [List.map_cons, if_pos hw]
      rw [List.find?_cons_of_pos _ (by simpa using hid)]
    · rw [List.find?_cons_of_neg _ (by simpa using hw)] at h
      rw [List.map_cons, if_neg hw, List.find?_cons_of_neg _ (by simpa using hw)]
      exact ih h

/-- C1: when every option of a round carries a numeric vote sum at most
`M` and at least two options attain `M` (the top two summed scores are
exactly equal), `calculate_results` accepts a further-discussion option,
regardless of the further-discussion option's own score or of the stored
order of the option rows. -/
theorem calculate_results_tie_further_discussion
    (st : IssueState) (vid : Nat) (v : Voting) (M : Int)
    (hv : findVoting st vid = some v)
    (hall : ∀ o ∈ v.options, ∃ x, sumScore st o.id = some x ∧ x ≤ M)
    (htwo : 2 ≤ v.options.countP (fun o => decide (sumScore st o.id = some M)))
    (hFD : ∃ o ∈ v.options, o.type = OptionType.further_discussion) :
    ∃ st2 evs vNew o,
      calculate_results st vid = some (st2, evs) ∧
      findVoting st2 vid = some vNew ∧
      vNew.accepted_option = some o.id ∧
      o ∈ vNew.options ∧
      o.type = OptionType.further_discussion := by
  have hvid : v.id = vid := by
    have h0 : st.votings.find? (fun w => decide (w.id = vid)) = some v := hv
    have h1 := List.find?_some h0
    simp only [decide_eq_true_eq] at h1
    exact h1
  have hall2 : ∀ o ∈ annotate st v, ∃ x, o.sum_score = some x ∧ x ≤ M := by
    intro o ho
    obtain ⟨o0, ho0, rfl⟩ := List.mem_map.mp ho
    exact hall o0 ho0
  have htwo2 : 2 ≤ (annotate st v).countP (fun o => decide (o.sum_score = some M)) := by
    rw [annotate, List.countP_map]
    exact htwo
  obtain ⟨a, b, t, hrev, haM, hbM⟩ := insertionSort_top_two_eq (annotate st v) M hall2 htwo2
  have hperm : List.Perm (List.insertionSort optionLE (annotate st v)) (annotate st v) :=
    List.perm_insertionSort optionLE (annotate st v)
  have hFD2 : ∃ o ∈ List.insertionSort optionLE (annotate st v),
      decide (o.type = OptionType.further_discussion) = true := by
    obtain ⟨o, ho, hot⟩ := hFD
    refine ⟨⟨o.id, o.type, sumScore st o.id⟩, ?_, by simpa using hot⟩
    rw [hperm.mem_iff]
    exact List.mem_map.mpr ⟨o, ho, rfl⟩
  obtain ⟨fd, hfd_eq, hfd_p, hfd_mem⟩ := find?_of_exists _ _ hFD2
  have hfd_type : fd.type = OptionType.further_discussion := of_decide_eq_true hfd_p
  have hchoose : chooseAccepted (List.insertionSort optionLE (annotate st v)) = some fd := by
    rw [chooseAccepted, hrev]
    simp only [hbM, haM, if_pos rfl]
    exact hfd_eq
  set vN : Voting := ⟨v.id, annotate st v, some fd.id⟩ with hvN
  set st1 : IssueState :=
    { st with votings := st.votings.map (fun w => if w.id = vid then vN else w) } with hst1
  refine ⟨further_discussion st1 vN, [Event.signal_issue_changed], vN, fd, ?_, ?_, rfl,
    hperm.mem_iff.mp hfd_mem, hfd_type⟩
  · rw [hst1, hvN]
    simp only [calculate_results, hv, Option.bind_eq_bind, Option.some_bind, hchoose]
    simp [do_action, hfd_type]
  · rw [hst1, hvN]
    simp only [findVoting, further_discussion]
    exact find?_append_some _ _ _ _
      (find?_map_replace st.votings vid ⟨v.id, annotate st v, some fd.id⟩ v hv hvid)

/-- Witness for C1: scores [5, 5, 3] on further-discussion, no-change,
remove-user tie the top two at 5, and the tally accepts the
further-discussion option. -/
theorem calculate_results_tie_further_discussion_witness :
    ∃ st2 evs vNew o,
      calculate_results issueScored553 0 = some (st2, evs) ∧
      findVoting st2 0 = some vNew ∧
      vNew.accepted_option = some o.id ∧
      o ∈ vNew.options ∧
      o.type = OptionType.further_discussion :=
  calculate_results_tie_further_discussion issueScored553 0
    ⟨0, [⟨1, OptionType.further_discussion, none⟩, ⟨2, OptionType.no_change, none⟩,
         ⟨3, OptionType.remove_user, none⟩], none⟩ 5
    (by decide)
    (by
      intro o ho
      simp only [List.mem_cons, List.not_mem_nil, or_false] at ho
      rcases ho with rfl | rfl | rfl
      · exact ⟨5, by decide, by decide⟩
      · exact ⟨5, by decide, by decide⟩
      · exact ⟨3, by decide, by decide⟩)
    (by decide) (by decide)

/-- If every option row of `ann` carries a numeric sum at most `M` and
exactly one row attains `M`, the last row of the ascending insertion
sort carries `M` and the second-last row carries a different sum. -/
theorem insertionSort_unique_max (ann : List VotingOption) (M : Int)
    (hall : ∀ o ∈ ann, ∃ x, o.sum_score = some x ∧ x ≤ M)
    (hone : ann.countP (fun o => decide (o.sum_score = some M)) = 1)
    (hlen : 2 ≤ ann.length) :
    ∃ a b t, (List.insertionSort optionLE ann).reverse = a :: b :: t ∧
      a.sum_score = some M ∧ ¬ b.sum_score = a.sum_score := by
  have hsort : List.Sorted optionLE (List.insertionSort optionLE ann) :=
    List.sorted_insertionSort optionLE ann
  have hperm : List.Perm (List.insertionSort optionLE ann) ann :=
    List.perm_insertionSort optionLE ann
  have hle : ∀ o ∈ List.insertionSort optionLE ann, nullsLastLE o.sum_score (some M) := by
    intro o ho
    obtain ⟨x, hx, hxM⟩ := hall o (hperm.mem_iff.mp ho)
    simp [nullsLastLE, nullsLastLEb, hx, hxM]
  have hcount : (List.insertionSort optionLE ann).countP
      (fun o => decide (o.sum_score = some M)) = 1 := by
    rw [hperm.countP_eq]
    exact hone
  have hlen2 : 2 ≤ (List.insertionSort optionLE ann).length := by
    rw [hperm.length_eq]
    exact hlen
  obtain ⟨a, b, t, hrev⟩ :
      ∃ a b t, (List.insertionSort optionLE ann).reverse = a :: b :: t := by
    match hsr : (List.insertionSort optionLE ann).reverse with
    | [] =>
      rw [← List.length_reverse, hsr] at hlen2
      simp at hlen2
    | [a] =>
      rw [← List.length_reverse, hsr] at hlen2
      simp at hlen2
    | a :: b :: t => exact ⟨a, b, t, rfl⟩
  obtain ⟨hseq, hbelow_a, -, ha_mem, -⟩ :=
    sorted_last_two (List.insertionSort optionLE ann) hsort a b t hrev
  have hattain : ∃ o ∈ List.insertionSort optionLE ann, o.sum_score = some M := by
    have hpos : 0 < (List.insertionSort optionLE ann).countP
        (fun o => decide (o.sum_score = some M)) := by omega
    obtain ⟨o, ho, hpo⟩ := List.countP_pos.mp hpos
    exact ⟨o, ho, of_decide_eq_true hpo⟩
  have haM : a.sum_score = some M := by
    obtain ⟨o, ho, hoM⟩ := hattain
    have h1 := hbelow_a o ho
    rw [optionLE, hoM] at h1
    exact nullsLastLE_antisymm_at a.sum_score M (hle a ha_mem) h1
  refine ⟨a, b, t, hrev, haM, ?_⟩
  intro hbe
  have hsplit := congrArg (List.countP (fun o => decide (o.sum_score = some M))) hseq
  rw [hcount, List.countP_append, List.countP_append] at hsplit
  have hca : List.countP (fun o => decide (o.sum_score = some M)) [a] = 1 := by
    simp [haM]
  have hcb : List.countP (fun o => decide (o.sum_score = some M)) [b] = 1 := by
    simp [hbe, haM]
  omega

/-- C2 (amended): when every option of the round has received at least
one vote (all sums numeric, at most `M`) and exactly one option attains
the maximum `M`, `calculate_results` accepts that unique maximal option,
and if its type is not further-discussion the issue becomes decided. -/
theorem calculate_results_unique_max
    (st : IssueState) (vid : Nat) (v : Voting) (M : Int)
    (hv : findVoting st vid = some v)
    (hall : ∀ o ∈ v.options, ∃ x, sumScore st o.id = some x ∧ x ≤ M)
    (hone : v.options.countP (fun o => decide (sumScore st o.id = some M)) = 1)
    (hlen : 2 ≤ v.options.length)
    (hmem : st.member_present = true) :
    ∃ st2 evs vNew o,
      calculate_results st vid = some (st2, evs) ∧
      findVoting st2 vid = some vNew ∧
      vNew.accepted_option = some o.id ∧
      o ∈ vNew.options ∧
      o.sum_score = some M ∧
      (¬ o.type = OptionType.further_discussion → st2.status = IssueStatus.decided) := by
  have hvid : v.id = vid := by
    have h0 : st.votings.find? (fun w => decide (w.id = vid)) = some v := hv
    have h1 := List.find?_some h0
    simp only [decide_eq_true_eq] at h1
    exact h1
  have hall2 : ∀ o ∈ annotate st v, ∃ x, o.sum_score = some x ∧ x ≤ M := by
    intro o ho
    obtain ⟨o0, ho0, rfl⟩ := List.mem_map.mp ho
    exact hall o0 ho0
  have hone2 : (annotate st v).countP (fun o => decide (o.sum_score = some M)) = 1 := by
    rw [annotate, List.countP_map]
    exact hone
  have hlen2 : 2 ≤ (annotate st v).length := by
    rw [annotate, List.length_map]
    exact hlen
  obtain ⟨a, b, t, hrev, haM, hbne⟩ := insertionSort_unique_max (annotate st v) M hall2 hone2 hlen2
  have hperm : List.Perm (List.insertionSort optionLE (annotate st v)) (annotate st v) :=
    List.perm_insertionSort optionLE (annotate st v)
  have ha_mem : a ∈ annotate st v := by
    refine hperm.mem_iff.mp ?_
    rw [← List.mem_reverse, hrev]
    exact List.mem_cons_self a (b :: t)
  have hchoose : chooseAccepted (List.insertionSort optionLE (annotate st v)) = some a := by
    rw [chooseAccepted, hrev]
    simp only [if_neg hbne]
  set vN : Voting := ⟨v.id, annotate st v, some a.id⟩ with hvN
  set st1 : IssueState :=
    { st with votings := st.votings.map (fun w => if w.id = vid then vN else w) } with hst1
  have hfind1 : findVoting st1 vid = some vN := by
    rw [hst1, hvN]
    simp only [findVoting]
    exact find?_map_replace st.votings vid ⟨v.id, annotate st v, some a.id⟩ v hv hvid
  cases hat : a.type with
  | further_discussion =>
    refine ⟨further_discussion st1 vN, [Event.signal_issue_changed], vN, a, ?_, ?_, rfl,
      ha_mem, haM, fun hne => absurd hat hne⟩
    · rw [hst1, hvN]
      simp only [calculate_results, hv, Option.bind_eq_bind, Option.some_bind, hchoose]
      simp [do_action, hat]
    · rw [hst1, hvN]
      simp only [findVoting, further_discussion]
      exact find?_append_some _ _ _ _
        (find?_map_replace st.votings vid ⟨v.id, annotate st v, some a.id⟩ v hv hvid)
  | no_change =>
    refine ⟨{ st1 with status := IssueStatus.decided }, [Event.signal_issue_changed], vN, a,
      ?_, ?_, rfl, ha_mem, haM, fun _ => rfl⟩
    · rw [hst1, hvN]
      simp only [calculate_results, hv, Option.bind_eq_bind, Option.some_bind, hchoose]
      simp [do_action, hat]
    · simp only [findVoting]
      exact hfind1
  | remove_user =>
    refine ⟨{ st1 with status := IssueStatus.decided, member_present := false },
      [Event.history_member_removed, Event.signal_issue_changed], vN, a,
      ?_, ?_, rfl, ha_mem, haM, fun _ => rfl⟩
    · rw [hst1, hvN]
      simp only [calculate_results, hv, Option.bind_eq_bind, Option.some_bind, hchoose]
      simp [do_action, hat, hmem]
    · simp only [findVoting]
      exact hfind1

/-- C2 counterexample: in a round where the further-discussion option
received no votes at all while no-change holds the unique numeric
maximum 7, the tally accepts the vote-less further-discussion option
(its NULL sum sorts above every numeric sum in the ascending order) and
the issue stays ongoing instead of becoming decided. -/
theorem calculate_results_null_sum_wins :
    calculate_results issuePartial72 0 =
      some (issuePartialTallied, [Event.signal_issue_changed]) ∧
    findVoting issuePartialTallied 0 =
      some ⟨0, [⟨1, OptionType.further_discussion, none⟩,
                ⟨2, OptionType.no_change, some 7⟩,
                ⟨3, OptionType.remove_user, some 2⟩], some 1⟩ ∧
    sumScore issuePartial72 1 = none ∧
    sumScore issuePartial72 2 = some 7 ∧
    sumScore issuePartial72 3 = some 2 ∧
    issuePartialTallied.status = IssueStatus.ongoing := by
  refine ⟨?_, by decide, by decide, by decide, by decide, by decide⟩
  decide

/-- Witness for the amended C2: scores [1, 7, 2] give the unique maximum
7 to no-change; the tally accepts it and the issue becomes decided. -/
theorem calculate_results_unique_max_witness :
    ∃ st2 evs vNew o,
      calculate_results issueScored172 0 = some (st2, evs) ∧
      findVoting st2 0 = some vNew ∧
      vNew.accepted_option = some o.id ∧
      o ∈ vNew.options ∧
      o.sum_score = some 7 ∧
      (¬ o.type = OptionType.further_discussion → st2.status = IssueStatus.decided) :=
  calculate_results_unique_max issueScored172 0
    ⟨0, [⟨1, OptionType.further_discussion, none⟩, ⟨2, OptionType.no_change, none⟩,
         ⟨3, OptionType.remove_user, none⟩], none⟩ 7
    (by decide)
    (by
      intro o ho
      simp only [List.mem_cons, List.not_mem_nil, or_false] at ho
      rcases ho with rfl | rfl | rfl
      · exact ⟨1, by decide, by decide⟩
      · exact ⟨7, by decide, by decide⟩
      · exact ⟨2, by decide, by decide⟩)
    (by decide) (by decide) (by decide)

/-- The full specification of the `save_votes` loop.  `prior` is the
fixed snapshot of the user's votes in the round; the lemma walks
`vote_data` and characterises the final ledger, the created rows and the
untouched existing rows.  The invariant hypotheses say: the keys are the
distinct dict keys, every ledger vote of the user on a key is in the
snapshot, every snapshot vote on a key is still in the ledger, the
database constraints hold, and all row ids are below the sequence. -/
theorem saveVotesLoop_spec (user : Nat) (prior : List Vote)
    (hpuniq : ∀ p1 ∈ prior, ∀ p2 ∈ prior, p1.option = p2.option → p1 = p2)
    (hpuser : ∀ p ∈ prior, p.user = user) :
    ∀ (data : List (Nat × Int)) (nid : Nat) (ledger : List Vote),
    (data.map Prod.fst).Nodup →
    (∀ oid ∈ data.map Prod.fst, ∀ x ∈ ledger, x.user = user → x.option = oid → x ∈ prior) →
    (∀ oid ∈ data.map Prod.fst, ∀ p ∈ prior, p.option = oid → p ∈ ledger) →
    UniqueVotes ledger →
    IdsBelow ledger nid →
    nid ≤ (saveVotesLoop user prior data nid ledger).2.1 ∧
    UniqueVotes (saveVotesLoop user prior data nid ledger).1 ∧
    IdsBelow (saveVotesLoop user prior data nid ledger).1
      (saveVotesLoop user prior data nid ledger).2.1 ∧
    (∀ x ∈ ledger, x ∈ (saveVotesLoop user prior data nid ledger).1 ∨
      (x.user = user ∧ ∃ s, (x.option, s) ∈ data ∧ ¬ x.score = s)) ∧
    (∀ x ∈ ledger, x.user = user → ∀ oid s, (oid, s) ∈ data → x.option = oid →
      ¬ x.score = s → x ∉ (saveVotesLoop user prior data nid ledger).1) ∧
    (∀ x ∈ (saveVotesLoop user prior data nid ledger).1,
      x ∈ ledger ∨ x ∈ (saveVotesLoop user prior data nid ledger).2.2.1) ∧
    (∀ x ∈ (saveVotesLoop user prior data nid ledger).2.2.1,
      x.user = user ∧ (x.option, x.score) ∈ data ∧ nid ≤ x.id ∧
      x.id < (saveVotesLoop user prior data nid ledger).2.1 ∧
      ¬ hasMatch prior x.option x.score ∧
      x ∈ (saveVotesLoop user prior data nid ledger).1) ∧
    (∀ oid s, (oid, s) ∈ data → ¬ hasMatch prior oid s →
      ∃ x ∈ (saveVotesLoop user prior data nid ledger).2.2.1,
        x.option = oid ∧ x.score = s) ∧
    (∀ x ∈ (saveVotesLoop user prior data nid ledger).2.2.2,
      x ∈ prior ∧ (x.option, x.score) ∈ data ∧
      x ∈ (saveVotesLoop user prior data nid ledger).1) ∧
    (∀ p ∈ prior, (p.option, p.score) ∈ data → p ∈ (saveVotesLoop user prior data nid ledger).2.2.2) := by
  intro data
  induction data with
  | nil =>
    intro nid ledger hnodup hA3 hA4 huniq hids
    simp only [saveVotesLoop]
    refine ⟨Nat.le_refl nid, huniq, hids, ?_, ?_, ?_, ?_, ?_, ?_, ?_⟩
    · intro x hx
      exact Or.inl hx
    · intro x hx hxu oid s hmem
      simp at hmem
    · intro x hx
      exact Or.inl hx
    · intro x hx
      simp at hx
    · intro oid s hmem
      simp at hmem
    · intro x hx
      simp at hx
    · intro p hp hmem
      simp at hmem
  | cons hd tl ih =>
    obtain ⟨oid, s⟩ := hd
    intro nid ledger hnodup hA3 hA4 huniq hids
    have hnodup_tl : (tl.map Prod.fst).Nodup := hnodup.of_cons
    have hoid_not_tl : oid ∉ tl.map Prod.fst := by
      have := hnodup
      rw [List.map_cons, List.nodup_cons] at this
      exact this.1
    have hkey_mem : oid ∈ ((oid, s) :: tl).map Prod.fst := by
      simp
    cases hfind : prior.find? (fun w => decide (w.option = oid)) with
    | some pv =>
      have hpv_mem : pv ∈ prior := List.mem_of_find?_eq_some hfind
      have hpv_opt : pv.option = oid := by
        have h1 := List.find?_some hfind
        simpa using h1
      have hpv_user : pv.user = user := hpuser pv hpv_mem
      have hpv_ledger : pv ∈ ledger := hA4 oid hkey_mem pv hpv_mem hpv_opt
      by_cases hsc : pv.score = s
      · -- identical score: untouched, becomes existing
        have hstep : saveVotesLoop user prior ((oid, s) :: tl) nid ledger =
            ((saveVotesLoop user prior tl nid ledger).1,
             (saveVotesLoop user prior tl nid ledger).2.1,
             (saveVotesLoop user prior tl nid ledger).2.2.1,
             pv :: (saveVotesLoop user prior tl nid ledger).2.2.2) := by
          simp only [saveVotesLoop, hfind, if_pos hsc]
        obtain ⟨ih1, ih2, ih3, ih4, ih5, ih6, ih7, ih8, ih9, ih10⟩ :=
          ih nid ledger hnodup_tl
            (fun oid2 h2 => hA3 oid2 (List.mem_cons_of_mem _ h2))
            (fun oid2 h2 => hA4 oid2 (List.mem_cons_of_mem _ h2))
            huniq hids
        rw [hstep]
        refine ⟨ih1, ih2, ih3, ?_, ?_, ?_, ?_, ?_, ?_, ?_⟩
        · intro x hx
          rcases ih4 x hx with h | ⟨hxu, s2, hs2, hne⟩
          · exact Or.inl h
          · exact Or.inr ⟨hxu, s2, List.mem_cons_of_mem _ hs2, hne⟩
        · intro x hx hxu oid2 s2 hmem hxo hne
          rw [List.mem_cons] at hmem
          rcases hmem with heq | hmem
          · -- the head key: x must be pv, whose score matches, contradiction
            rw [Prod.mk.injEq] at heq
            obtain ⟨h1, h2⟩ := heq
            have hx_prior : x ∈ prior := hA3 oid hkey_mem x hx hxu (hxo.trans h1)
            have hxpv : x = pv :=
              hpuniq x hx_prior pv hpv_mem (by rw [hxo, h1, hpv_opt])
            rw [hxpv, h2] at hne
            exact absurd hsc hne
          · exact ih5 x hx hxu oid2 s2 hmem hxo hne
        · exact ih6
        · intro x hx
          obtain ⟨h1, h2, h3, h4, h5, h6⟩ := ih7 x hx
          exact ⟨h1, List.mem_cons_of_mem _ h2, h3, h4, h5, h6⟩
        · intro oid2 s2 hmem hnm
          rw [List.mem_cons] at hmem
          rcases hmem with heq | hmem
          · rw [Prod.mk.injEq] at heq
            obtain ⟨h1, h2⟩ := heq
            rw [h1, h2] at hnm
            exact absurd ⟨pv, hpv_mem, hpv_opt, hsc⟩ hnm
          · exact ih8 oid2 s2 hmem hnm
        · intro x hx
          rw [List.mem_cons] at hx
          rcases hx with hxe | hx
          · refine ⟨by rw [hxe]; exact hpv_mem, ?_, ?_⟩
            · rw [hxe, hpv_opt, hsc]
              exact List.mem_cons_self _ _
            · rw [hxe]
              rcases ih4 pv hpv_ledger with h | ⟨-, s2, hs2, -⟩
              · exact h
              · rw [hpv_opt] at hs2
                exact absurd (List.mem_map.mpr ⟨(oid, s2), hs2, rfl⟩) hoid_not_tl
          · obtain ⟨h1, h2, h3⟩ := ih9 x hx
            exact ⟨h1, List.mem_cons_of_mem _ h2, h3⟩
        · intro p hp hmem
          rw [List.mem_cons] at hmem
          rcases hmem with heq | hmem
          · rw [Prod.mk.injEq] at heq
            obtain ⟨h1, h2⟩ := heq
            have hpeq : p = pv := hpuniq p hp pv hpv_mem (by rw [h1, hpv_opt])
            rw [hpeq]
            exact List.mem_cons_self _ _
          · exact List.mem_cons_of_mem _ (ih10 p hp hmem)
      · -- differing score: pv is deleted, a fresh row is created
        have hstep : saveVotesLoop user prior ((oid, s) :: tl) nid ledger =
            ((saveVotesLoop user prior tl (nid + 1)
                ((ledger.filter (fun w => decide ¬ w.id = pv.id)) ++ [⟨nid, user, oid, s⟩])).1,
             (saveVotesLoop user prior tl (nid + 1)
                ((ledger.filter (fun w => decide ¬ w.id = pv.id)) ++ [⟨nid, user, oid, s⟩])).2.1,
             (⟨nid, user, oid, s⟩ : Vote) ::
               (saveVotesLoop user prior tl (nid + 1)
                 ((ledger.filter (fun w => decide ¬ w.id = pv.id)) ++ [⟨nid, user, oid, s⟩])).2.2.1,
             (saveVotesLoop user prior tl (nid + 1)
               ((ledger.filter (fun w => decide ¬ w.id = pv.id)) ++ [⟨nid, user, oid, s⟩])).2.2.2) := by
          simp only [saveVotesLoop, hfind, if_neg hsc]
        set nv : Vote := (⟨nid, user, oid, s⟩ : Vote) with hnv
        set newLedger : List Vote :=
          (ledger.filter (fun w => decide ¬ w.id = pv.id)) ++ [nv] with hnl
        have hmem_newLedger : ∀ x, x ∈ newLedger ↔
            ((x ∈ ledger ∧ ¬ x.id = pv.id) ∨ x = nv) := by
          intro x
          rw [hnl]
          simp [List.mem_filter, decide_eq_true_eq]
        have hnv_user : nv.user = user := rfl
        have hnv_opt : nv.option = oid := rfl
        have hnv_id : nv.id = nid := rfl
        -- invariants for the recursive call
        have hA3' : ∀ oid2 ∈ tl.map Prod.fst, ∀ x ∈ newLedger,
            x.user = user → x.option = oid2 → x ∈ prior := by
          intro oid2 h2 x hx hxu hxo
          rcases (hmem_newLedger x).mp hx with ⟨hxl, -⟩ | rfl
          · exact hA3 oid2 (List.mem_cons_of_mem _ h2) x hxl hxu hxo
          · rw [hnv_opt] at hxo
            exact absurd (hxo ▸ h2) hoid_not_tl
        have hA4' : ∀ oid2 ∈ tl.map Prod.fst, ∀ p ∈ prior, p.option = oid2 →
            p ∈ newLedger := by
          intro oid2 h2 p hp hpo
          have hpl : p ∈ ledger := hA4 oid2 (List.mem_cons_of_mem _ h2) p hp hpo
          refine (hmem_newLedger p).mpr (Or.inl ⟨hpl, ?_⟩)
          intro hpid
          have : p = pv := huniq p hpl pv hpv_ledger (Or.inl hpid)
          rw [this, hpv_opt] at hpo
          exact hoid_not_tl (hpo ▸ h2)
        have huniq' : UniqueVotes newLedger := by
          intro w1 h1 w2 h2 hcol
          rcases (hmem_newLedger w1).mp h1 with ⟨h1l, h1id⟩ | rfl
          · rcases (hmem_newLedger w2).mp h2 with ⟨h2l, h2id⟩ | rfl
            · exact huniq w1 h1l w2 h2l hcol
            · rcases hcol with hid | ⟨hu, ho⟩
              · rw [hnv_id] at hid
                exact absurd (hid ▸ hids w1 h1l) (Nat.lt_irrefl nid)
              · rw [hnv_user] at hu
                rw [hnv_opt] at ho
                have hw1p : w1 ∈ prior := hA3 oid hkey_mem w1 h1l hu ho
                have : w1 = pv := hpuniq w1 hw1p pv hpv_mem (by rw [ho, hpv_opt])
                exact absurd (this ▸ rfl) h1id
          · rcases (hmem_newLedger w2).mp h2 with ⟨h2l, h2id⟩ | rfl
            · rcases hcol with hid | ⟨hu, ho⟩
              · rw [hnv_id] at hid
                exact absurd (hid ▸ hids w2 h2l) (Nat.lt_irrefl nid)
              · rw [hnv_user] at hu
                rw [hnv_opt] at ho
                have hw2p : w2 ∈ prior := hA3 oid hkey_mem w2 h2l hu.symm ho.symm
                have : w2 = pv := hpuniq w2 hw2p pv hpv_mem (by rw [← ho, hpv_opt])
                exact absurd (this ▸ rfl) h2id
            · rfl
        have hids' : IdsBelow newLedger (nid + 1) := by
          intro w hw
          rcases (hmem_newLedger w).mp hw with ⟨hwl, -⟩ | rfl
          · exact Nat.lt_succ_of_lt (hids w hwl)
          · rw [hnv_id]
            exact Nat.lt_succ_self nid
        obtain ⟨ih1, ih2, ih3, ih4, ih5, ih6, ih7, ih8, ih9, ih10⟩ :=
          ih (nid + 1) newLedger hnodup_tl hA3' hA4' huniq' hids'
        rw [hstep]
        have hnv_final : nv ∈ (saveVotesLoop user prior tl (nid + 1) newLedger).1 := by
          rcases ih4 nv ((hmem_newLedger nv).mpr (Or.inr rfl)) with h | ⟨-, s2, hs2, -⟩
          · exact h
          · rw [hnv_opt] at hs2
            exact absurd (List.mem_map.mpr ⟨(oid, s2), hs2, rfl⟩) hoid_not_tl
        have hpv_gone : pv ∉ (saveVotesLoop user prior tl (nid + 1) newLedger).1 := by
          intro hcontra
          rcases ih6 pv hcontra with h | h
          · rcases (hmem_newLedger pv).mp h with ⟨-, hpid⟩ | heq
            · exact hpid rfl
            · have := congrArg Vote.id heq
              rw [hnv_id] at this
              exact absurd (this ▸ hids pv hpv_ledger) (Nat.lt_irrefl nid)
          · obtain ⟨-, -, hge, -, -, -⟩ := ih7 pv h
            exact absurd (Nat.lt_of_lt_of_le (hids pv hpv_ledger) (Nat.le_succ nid))
              (Nat.not_lt.mpr hge)
        refine ⟨Nat.le_trans (Nat.le_succ nid) ih1, ih2, ih3, ?_, ?_, ?_, ?_, ?_, ?_, ?_⟩
        · -- kept or deleted-because-changed
          intro x hx
          by_cases hxid : x.id = pv.id
          · have hxpv : x = pv := huniq x hx pv hpv_ledger (Or.inl hxid)
            refine Or.inr ⟨by rw [hxpv]; exact hpv_user, s, ?_, by rw [hxpv]; exact hsc⟩
            rw [hxpv, hpv_opt]
            exact List.mem_cons_self _ _
          · have hx' : x ∈ newLedger := (hmem_newLedger x).mpr (Or.inl ⟨hx, hxid⟩)
            rcases ih4 x hx' with h | ⟨hxu, s2, hs2, hne⟩
            · exact Or.inl h
            · exact Or.inr ⟨hxu, s2, List.mem_cons_of_mem _ hs2, hne⟩
        · -- deleted votes are gone
          intro x hx hxu oid2 s2 hmem hxo hne
          rw [List.mem_cons] at hmem
          rcases hmem with heq | hmem
          · rw [Prod.mk.injEq] at heq
            obtain ⟨h1, h2⟩ := heq
            have hx_prior : x ∈ prior := hA3 oid hkey_mem x hx hxu (hxo.trans h1)
            have hxpv : x = pv :=
              hpuniq x hx_prior pv hpv_mem (by rw [hxo, h1, hpv_opt])
            rw [hxpv]
            exact hpv_gone
          · have hxid : ¬ x.id = pv.id := by
              intro hxid
              have hxpv : x = pv := huniq x hx pv hpv_ledger (Or.inl hxid)
              have h4 : pv.option = oid2 := by
                rw [← hxpv]
                exact hxo
              refine hoid_not_tl ?_
              rw [← hpv_opt, h4]
              exact List.mem_map.mpr ⟨(oid2, s2), hmem, rfl⟩
            have hx' : x ∈ newLedger := (hmem_newLedger x).mpr (Or.inl ⟨hx, hxid⟩)
            exact ih5 x hx' hxu oid2 s2 hmem hxo hne
        · -- final ledger only holds old rows or created rows
          intro x hx
          rcases ih6 x hx with h | h
          · rcases (hmem_newLedger x).mp h with ⟨hxl, -⟩ | rfl
            · exact Or.inl hxl
            · exact Or.inr (List.mem_cons_self _ _)
          · exact Or.inr (List.mem_cons_of_mem _ h)
        · -- created rows
          intro x hx
          rw [List.mem_cons] at hx
          rcases hx with rfl | hx
          · refine ⟨rfl, List.mem_cons_self _ _, Nat.le_refl nid,
              Nat.lt_of_lt_of_le (Nat.lt_succ_self nid) ih1, ?_, hnv_final⟩
            intro hm
            obtain ⟨pv2, hpv2, ho2, hs2⟩ := hm
            have : pv2 = pv := hpuniq pv2 hpv2 pv hpv_mem (by rw [ho2, hpv_opt])
            rw [this] at hs2
            exact hsc hs2
          · obtain ⟨h1, h2, h3, h4, h5, h6⟩ := ih7 x hx
            exact ⟨h1, List.mem_cons_of_mem _ h2, Nat.le_trans (Nat.le_succ nid) h3, h4, h5, h6⟩
        · -- created rows cover every unmatched key
          intro oid2 s2 hmem hnm
          rw [List.mem_cons] at hmem
          rcases hmem with heq | hmem
          · rw [Prod.mk.injEq] at heq
            obtain ⟨h1, h2⟩ := heq
            exact ⟨nv, List.mem_cons_self _ _, h1.symm, h2.symm⟩
          · obtain ⟨x, hx, hxo, hxs⟩ := ih8 oid2 s2 hmem hnm
            exact ⟨x, List.mem_cons_of_mem _ hx, hxo, hxs⟩
        · -- existing rows
          intro x hx
          obtain ⟨h1, h2, h3⟩ := ih9 x hx
          exact ⟨h1, List.mem_cons_of_mem _ h2, h3⟩
        · -- every matched snapshot row becomes existing
          intro p hp hmem
          rw [List.mem_cons] at hmem
          rcases hmem with heq | hmem
          · rw [Prod.mk.injEq] at heq
            obtain ⟨h1, h2⟩ := heq
            have hpeq : p = pv := hpuniq p hp pv hpv_mem (by rw [h1, hpv_opt])
            rw [hpeq] at h2
            exact absurd h2 hsc
          · exact ih10 p hp hmem
    | none =>
      have hnone : ∀ y ∈ prior, ¬ y.option = oid := by
        intro y hy
        have h1 := List.find?_eq_none.mp hfind y hy
        simpa using h1
      have hno_ledger : ∀ x ∈ ledger, x.user = user → ¬ x.option = oid := by
        intro x hx hxu hxo
        exact hnone x (hA3 oid hkey_mem x hx hxu hxo) hxo
      have hstep : saveVotesLoop user prior ((oid, s) :: tl) nid ledger =
          ((saveVotesLoop user prior tl (nid + 1) (ledger ++ [⟨nid, user, oid, s⟩])).1,
           (saveVotesLoop user prior tl (nid + 1) (ledger ++ [⟨nid, user, oid, s⟩])).2.1,
           (⟨nid, user, oid, s⟩ : Vote) ::
             (saveVotesLoop user prior tl (nid + 1) (ledger ++ [⟨nid, user, oid, s⟩])).2.2.1,
           (saveVotesLoop user prior tl (nid + 1) (ledger ++ [⟨nid, user, oid, s⟩])).2.2.2) := by
        simp only [saveVotesLoop, hfind]
      set nv : Vote := (⟨nid, user, oid, s⟩ : Vote) with hnv
      set newLedger : List Vote := ledger ++ [nv] with hnl
      have hmem_newLedger : ∀ x, x ∈ newLedger ↔ (x ∈ ledger ∨ x = nv) := by
        intro x
        rw [hnl]
        simp
      have hA3' : ∀ oid2 ∈ tl.map Prod.fst, ∀ x ∈ newLedger,
          x.user = user → x.option = oid2 → x ∈ prior := by
        intro oid2 h2 x hx hxu hxo
        rcases (hmem_newLedger x).mp hx with hxl | hxe
        · exact hA3 oid2 (List.mem_cons_of_mem _ h2) x hxl hxu hxo
        · rw [hxe] at hxo
          have h3 : oid = oid2 := hxo
          refine absurd ?_ hoid_not_tl
          rw [h3]
          exact h2
      have hA4' : ∀ oid2 ∈ tl.map Prod.fst, ∀ p ∈ prior, p.option = oid2 →
          p ∈ newLedger := by
        intro oid2 h2 p hp hpo
        exact (hmem_newLedger p).mpr
          (Or.inl (hA4 oid2 (List.mem_cons_of_mem _ h2) p hp hpo))
      have huniq' : UniqueVotes newLedger := by
        intro w1 h1 w2 h2 hcol
        rcases (hmem_newLedger w1).mp h1 with h1l | h1e
        · rcases (hmem_newLedger w2).mp h2 with h2l | h2e
          · exact huniq w1 h1l w2 h2l hcol
          · rw [h2e] at hcol
            rcases hcol with hid | ⟨hu, ho⟩
            · have h3 := hids w1 h1l
              rw [hid] at h3
              exact absurd h3 (Nat.lt_irrefl nid)
            · exact absurd ho (hno_ledger w1 h1l hu)
        · rcases (hmem_newLedger w2).mp h2 with h2l | h2e
          · rw [h1e] at hcol
            rcases hcol with hid | ⟨hu, ho⟩
            · have h3 := hids w2 h2l
              rw [← hid] at h3
              exact absurd h3 (Nat.lt_irrefl nid)
            · exact absurd ho.symm (hno_ledger w2 h2l hu.symm)
          · rw [h1e, h2e]
      have hids' : IdsBelow newLedger (nid + 1) := by
        intro w hw
        rcases (hmem_newLedger w).mp hw with hwl | rfl
        · exact Nat.lt_succ_of_lt (hids w hwl)
        · exact Nat.lt_succ_self nid
      obtain ⟨ih1, ih2, ih3, ih4, ih5, ih6, ih7, ih8, ih9, ih10⟩ :=
        ih (nid + 1) newLedger hnodup_tl hA3' hA4' huniq' hids'
      rw [hstep]
      have hnv_final : nv ∈ (saveVotesLoop user prior tl (nid + 1) newLedger).1 := by
        rcases ih4 nv ((hmem_newLedger nv).mpr (Or.inr rfl)) with h | ⟨-, s2, hs2, -⟩
        · exact h
        · exact absurd (List.mem_map.mpr ⟨(oid, s2), hs2, rfl⟩) hoid_not_tl
      refine ⟨Nat.le_trans (Nat.le_succ nid) ih1, ih2, ih3, ?_, ?_, ?_, ?_, ?_, ?_, ?_⟩
      · intro x hx
        have hx' : x ∈ newLedger := (hmem_newLedger x).mpr (Or.inl hx)
        rcases ih4 x hx' with h | ⟨hxu, s2, hs2, hne⟩
        · exact Or.inl h
        · exact Or.inr ⟨hxu, s2, List.mem_cons_of_mem _ hs2, hne⟩
      · intro x hx hxu oid2 s2 hmem hxo hne
        rw [List.mem_cons] at hmem
        rcases hmem with heq | hmem
        · rw [Prod.mk.injEq] at heq
          obtain ⟨h1, h2⟩ := heq
          exact absurd (hxo.trans h1) (hno_ledger x hx hxu)
        · exact ih5 x ((hmem_newLedger x).mpr (Or.inl hx)) hxu oid2 s2 hmem hxo hne
      · intro x hx
        rcases ih6 x hx with h | h
        · rcases (hmem_newLedger x).mp h with hxl | rfl
          · exact Or.inl hxl
          · exact Or.inr (List.mem_cons_self _ _)
        · exact Or.inr (List.mem_cons_of_mem _ h)
      · intro x hx
        rw [List.mem_cons] at hx
        rcases hx with rfl | hx
        · refine ⟨rfl, List.mem_cons_self _ _, Nat.le_refl nid,
            Nat.lt_of_lt_of_le (Nat.lt_succ_self nid) ih1, ?_, hnv_final⟩
          intro hm
          obtain ⟨pv2, hpv2, ho2, -⟩ := hm
          exact hnone pv2 hpv2 ho2
        · obtain ⟨h1, h2, h3, h4, h5, h6⟩ := ih7 x hx
          exact ⟨h1, List.mem_cons_of_mem _ h2, Nat.le_trans (Nat.le_succ nid) h3, h4, h5, h6⟩
      · intro oid2 s2 hmem hnm
        rw [List.mem_cons] at hmem
        rcases hmem with heq | hmem
        · rw [Prod.mk.injEq] at heq
          obtain ⟨h1, h2⟩ := heq
          exact ⟨nv, List.mem_cons_self _ _, h1.symm, h2.symm⟩
        · obtain ⟨x, hx, hxo, hxs⟩ := ih8 oid2 s2 hmem hnm
          exact ⟨x, List.mem_cons_of_mem _ hx, hxo, hxs⟩
      · intro x hx
        obtain ⟨h1, h2, h3⟩ := ih9 x hx
        exact ⟨h1, List.mem_cons_of_mem _ h2, h3⟩
      · intro p hp hmem
        rw [List.mem_cons] at hmem
        rcases hmem with heq | hmem
        · rw [Prod.mk.injEq] at heq
          exact absurd heq.1 (hnone p hp)
        · exact ih10 p hp hmem

/-- Membership in the snapshot of the user's votes in a round. -/
theorem votesInVoting_mem (st : IssueState) (v : Voting) (user : Nat) (x : Vote) :
    x ∈ votesInVoting st v user ↔
      (x ∈ st.votes ∧ x.user = user ∧ x.option ∈ optionIds v) := by
  rw [votesInVoting]
  simp [List.mem_filter, decide_eq_true_eq, and_assoc]

/-- The `save_votes` postcondition under the database constraints: the
call succeeds; rounds, status and membership are untouched; the ledger
constraints are preserved; per-option effects are as the loop prescribes
and the returned list is exactly the user's post-call votes on the
submitted options. -/
theorem save_votes_master (st : IssueState) (vid user : Nat)
    (data : List (Nat × Int)) (v : Voting)
    (hv : findVoting st vid = some v)
    (hnodup : (data.map Prod.fst).Nodup)
    (hsub : ∀ oid ∈ data.map Prod.fst, oid ∈ optionIds v)
    (huniq : UniqueVotes st.votes)
    (hids : IdsBelow st.votes st.next_id) :
    ∃ st2 r evs, save_votes st vid user data = some (st2, r, evs) ∧
      st2.votings = st.votings ∧
      st2.status = st.status ∧
      st2.member_present = st.member_present ∧
      st.next_id ≤ st2.next_id ∧
      UniqueVotes st2.votes ∧
      IdsBelow st2.votes st2.next_id ∧
      (∀ x ∈ st.votes, x ∈ st2.votes ∨
        (x.user = user ∧ ∃ s, (x.option, s) ∈ data ∧ ¬ x.score = s)) ∧
      (∀ x ∈ st.votes, x.user = user → ∀ oid s, (oid, s) ∈ data → x.option = oid →
        ¬ x.score = s → x ∉ st2.votes) ∧
      (∀ x ∈ st2.votes, x ∈ st.votes ∨
        (x.user = user ∧ (x.option, x.score) ∈ data ∧ st.next_id ≤ x.id)) ∧
      (∀ oid s, (oid, s) ∈ data → ¬ hasMatch (votesInVoting st v user) oid s →
        ∃ x ∈ st2.votes, x.user = user ∧ x.option = oid ∧ x.score = s ∧ st.next_id ≤ x.id) ∧
      (∀ pv ∈ votesInVoting st v user, (pv.option, pv.score) ∈ data →
        pv ∈ st2.votes ∧ pv ∈ r) ∧
      (∀ x, x ∈ r ↔ (x ∈ st2.votes ∧ x.user = user ∧ x.option ∈ data.map Prod.fst)) := by
  have hprior_user : ∀ p ∈ votesInVoting st v user, p.user = user := by
    intro p hp
    exact ((votesInVoting_mem st v user p).mp hp).2.1
  have hprior_uniq : ∀ p1 ∈ votesInVoting st v user, ∀ p2 ∈ votesInVoting st v user,
      p1.option = p2.option → p1 = p2 := by
    intro p1 h1 p2 h2 ho
    obtain ⟨h1l, h1u, -⟩ := (votesInVoting_mem st v user p1).mp h1
    obtain ⟨h2l, h2u, -⟩ := (votesInVoting_mem st v user p2).mp h2
    exact huniq p1 h1l p2 h2l (Or.inr ⟨h1u.trans h2u.symm, ho⟩)
  have hA3 : ∀ oid ∈ data.map Prod.fst, ∀ x ∈ st.votes, x.user = user → x.option = oid →
      x ∈ votesInVoting st v user := by
    intro oid hk x hx hxu hxo
    exact (votesInVoting_mem st v user x).mpr ⟨hx, hxu, hxo ▸ hsub oid hk⟩
  have hA4 : ∀ oid ∈ data.map Prod.fst, ∀ p ∈ votesInVoting st v user, p.option = oid →
      p ∈ st.votes := by
    intro oid hk p hp hpo
    exact ((votesInVoting_mem st v user p).mp hp).1
  obtain ⟨ih1, ih2, ih3, ih4, ih5, ih6, ih7, ih8, ih9, ih10⟩ :=
    saveVotesLoop_spec user (votesInVoting st v user) hprior_uniq hprior_user
      data st.next_id st.votes hnodup hA3 hA4 huniq hids
  set L := saveVotesLoop user (votesInVoting st v user) data st.next_id st.votes with hL
  refine ⟨{ st with votes := L.1, next_id := L.2.1 }, L.2.2.1 ++ L.2.2.2,
    (if (votesInVoting st v user).length = 0 then [Event.stats_voted]
     else if L.2.2.1.length > 0 then [Event.stats_vote_changed] else [])
    ++ (if L.2.2.1.length > 0 then [Event.signal_issue_changed] else []),
    ?_, rfl, rfl, rfl, ih1, ih2, ih3, ih4, ih5, ?_, ?_, ?_, ?_⟩
  · simp only [save_votes, hv, Option.bind_eq_bind, Option.some_bind, ← hL]
  · -- post-ledger rows are old rows or fresh created rows
    intro x hx
    rcases ih6 x hx with h | h
    · exact Or.inl h
    · obtain ⟨h1, h2, h3, -, -, -⟩ := ih7 x h
      exact Or.inr ⟨h1, h2, h3⟩
  · -- every unmatched key got a fresh row
    intro oid s hmem hnm
    obtain ⟨x, hx, hxo, hxs⟩ := ih8 oid s hmem hnm
    obtain ⟨h1, -, h3, -, -, h6⟩ := ih7 x hx
    exact ⟨x, h6, h1, hxo, hxs, h3⟩
  · -- matched snapshot rows stay and are returned
    intro pv hp hmem
    have hE := ih10 pv hp hmem
    obtain ⟨-, -, h3⟩ := ih9 pv hE
    exact ⟨h3, List.mem_append.mpr (Or.inr hE)⟩
  · -- the returned list is the user's post-call votes on the keys
    intro x
    constructor
    · intro hx
      rcases List.mem_append.mp hx with hc | he
      · obtain ⟨h1, h2, -, -, -, h6⟩ := ih7 x hc
        exact ⟨h6, h1, List.mem_map.mpr ⟨(x.option, x.score), h2, rfl⟩⟩
      · obtain ⟨h1, h2, h3⟩ := ih9 x he
        exact ⟨h3, hprior_user x h1, List.mem_map.mpr ⟨(x.option, x.score), h2, rfl⟩⟩
    · rintro ⟨hxL, hxu, hxk⟩
      rcases ih6 x hxL with hold | hc
      · obtain ⟨⟨oid, s⟩, hps, hpo⟩ := List.mem_map.mp hxk
        simp only at hpo
        by_cases hscore : x.score = s
        · have hxp : x ∈ votesInVoting st v user :=
            hA3 x.option (List.mem_map.mpr ⟨(oid, s), hps, hpo⟩) x hold hxu rfl
          have hdm : (x.option, x.score) ∈ data := by
            rw [hscore, ← hpo]
            exact hps
          exact List.mem_append.mpr (Or.inr (ih10 x hxp hdm))
        · exact absurd hxL (ih5 x hold hxu oid s hps (hpo.symm) hscore)
      · exact List.mem_append.mpr (Or.inl hc)

/-- C3: per-option behaviour of `save_votes` under the database
constraints (distinct dict keys, keys belonging to the round, unique
rows, id sequence above all rows): an existing vote resubmitted with an
identical score is left untouched and returned; a differing score
deletes the old vote and creates a fresh row with the new score; an
option not voted on before gets a fresh row; votes on options not
mentioned, and other users' votes, are left unchanged. -/
theorem save_votes_per_option_effects (st : IssueState) (vid user : Nat)
    (data : List (Nat × Int)) (v : Voting)
    (hv : findVoting st vid = some v)
    (hnodup : (data.map Prod.fst).Nodup)
    (hsub : ∀ oid ∈ data.map Prod.fst, oid ∈ optionIds v)
    (huniq : UniqueVotes st.votes)
    (hids : IdsBelow st.votes st.next_id) :
    ∃ st2 r evs, save_votes st vid user data = some (st2, r, evs) ∧
      (∀ oid s pv, (oid, s) ∈ data → pv ∈ st.votes → pv.user = user → pv.option = oid →
        pv.score = s → pv ∈ st2.votes ∧ pv ∈ r) ∧
      (∀ oid s pv, (oid, s) ∈ data → pv ∈ st.votes → pv.user = user → pv.option = oid →
        ¬ pv.score = s → pv ∉ st2.votes ∧
          ∃ nv ∈ st2.votes, nv.user = user ∧ nv.option = oid ∧ nv.score = s ∧
            st.next_id ≤ nv.id) ∧
      (∀ oid s, (oid, s) ∈ data → (∀ pv ∈ st.votes, ¬ (pv.user = user ∧ pv.option = oid)) →
        ∃ nv ∈ st2.votes, nv.user = user ∧ nv.option = oid ∧ nv.score = s ∧
          st.next_id ≤ nv.id) ∧
      (∀ w ∈ st.votes, (¬ w.user = user ∨ w.option ∉ data.map Prod.fst) →
        w ∈ st2.votes) := by
  obtain ⟨st2, r, evs, heq, -, -, -, -, -, -, hkept, hdel, -, hG1, hmatched, -⟩ :=
    save_votes_master st vid user data v hv hnodup hsub huniq hids
  refine ⟨st2, r, evs, heq, ?_, ?_, ?_, ?_⟩
  · -- (a) identical score
    intro oid s pv hmem hpl hpu hpo hps
    have hkey : oid ∈ data.map Prod.fst := List.mem_map.mpr ⟨(oid, s), hmem, rfl⟩
    have hpv_prior : pv ∈ votesInVoting st v user :=
      (votesInVoting_mem st v user pv).mpr ⟨hpl, hpu, hpo ▸ hsub oid hkey⟩
    exact hmatched pv hpv_prior (by rw [hpo, hps]; exact hmem)
  · -- (b) differing score
    intro oid s pv hmem hpl hpu hpo hps
    have hkey : oid ∈ data.map Prod.fst := List.mem_map.mpr ⟨(oid, s), hmem, rfl⟩
    have hpv_prior : pv ∈ votesInVoting st v user :=
      (votesInVoting_mem st v user pv).mpr ⟨hpl, hpu, hpo ▸ hsub oid hkey⟩
    refine ⟨hdel pv hpl hpu oid s hmem hpo hps, ?_⟩
    have hnm : ¬ hasMatch (votesInVoting st v user) oid s := by
      rintro ⟨pv2, hp2, ho2, hs2⟩
      have hpu2 : pv2.user = user := ((votesInVoting_mem st v user pv2).mp hp2).2.1
      have hpl2 : pv2 ∈ st.votes := ((votesInVoting_mem st v user pv2).mp hp2).1
      have : pv2 = pv := huniq pv2 hpl2 pv hpl (Or.inr ⟨hpu2.trans hpu.symm, ho2.trans hpo.symm⟩)
      rw [this] at hs2
      exact hps hs2
    obtain ⟨x, hx, h1, h2, h3, h4⟩ := hG1 oid s hmem hnm
    exact ⟨x, hx, h1, h2, h3, h4⟩
  · -- (c) fresh option
    intro oid s hmem hnone
    have hnm : ¬ hasMatch (votesInVoting st v user) oid s := by
      rintro ⟨pv2, hp2, ho2, -⟩
      obtain ⟨hpl2, hpu2, -⟩ := (votesInVoting_mem st v user pv2).mp hp2
      exact hnone pv2 hpl2 ⟨hpu2, ho2⟩
    obtain ⟨x, hx, h1, h2, h3, h4⟩ := hG1 oid s hmem hnm
    exact ⟨x, hx, h1, h2, h3, h4⟩
  · -- (d) unmentioned untouched
    intro w hw hcond
    rcases hkept w hw with h | ⟨hwu, s2, hs2, -⟩
    · exact h
    · rcases hcond with h | h
      · exact absurd hwu h
      · exact absurd (List.mem_map.mpr ⟨(w.option, s2), hs2, rfl⟩) h

/-- Witness for C3 on a concrete state: user 9 resubmits the identical
score for option 1 and a first score for option 2. -/
theorem save_votes_per_option_effects_witness :
    ∃ st2 r evs, save_votes issueAfterVote1 0 9 [(1, 1), (2, 2)] = some (st2, r, evs) ∧
      (∀ oid s pv, (oid, s) ∈ [((1 : Nat), (1 : Int)), (2, 2)] → pv ∈ issueAfterVote1.votes →
        pv.user = 9 → pv.option = oid → pv.score = s → pv ∈ st2.votes ∧ pv ∈ r) ∧
      (∀ oid s pv, (oid, s) ∈ [((1 : Nat), (1 : Int)), (2, 2)] → pv ∈ issueAfterVote1.votes →
        pv.user = 9 → pv.option = oid → ¬ pv.score = s → pv ∉ st2.votes ∧
          ∃ nv ∈ st2.votes, nv.user = 9 ∧ nv.option = oid ∧ nv.score = s ∧
            issueAfterVote1.next_id ≤ nv.id) ∧
      (∀ oid s, (oid, s) ∈ [((1 : Nat), (1 : Int)), (2, 2)] →
        (∀ pv ∈ issueAfterVote1.votes, ¬ (pv.user = 9 ∧ pv.option = oid)) →
        ∃ nv ∈ st2.votes, nv.user = 9 ∧ nv.option = oid ∧ nv.score = s ∧
          issueAfterVote1.next_id ≤ nv.id) ∧
      (∀ w ∈ issueAfterVote1.votes,
        (¬ w.user = 9 ∨ w.option ∉ ([((1 : Nat), (1 : Int)), (2, 2)]).map Prod.fst) →
        w ∈ st2.votes) :=
  save_votes_per_option_effects issueAfterVote1 0 9 [(1, 1), (2, 2)]
    ⟨0, [⟨1, OptionType.further_discussion, none⟩, ⟨2, OptionType.no_change, none⟩,
         ⟨3, OptionType.remove_user, none⟩], none⟩
    (by decide) (by decide) (by decide)
    (by unfold UniqueVotes; decide) (by unfold IdsBelow; decide)

/-- C4 (amended): `save_votes` returns exactly the user's post-call
votes on the options mentioned in this call's `vote_data` (newly created
rows plus untouched existing rows); earlier votes on unmentioned options
stay in the ledger but are not part of the returned set. -/
theorem save_votes_returns_mentioned_votes (st : IssueState) (vid user : Nat)
    (data : List (Nat × Int)) (v : Voting)
    (hv : findVoting st vid = some v)
    (hnodup : (data.map Prod.fst).Nodup)
    (hsub : ∀ oid ∈ data.map Prod.fst, oid ∈ optionIds v)
    (huniq : UniqueVotes st.votes)
    (hids : IdsBelow st.votes st.next_id) :
    ∃ st2 r evs, save_votes st vid user data = some (st2, r, evs) ∧
      (∀ x, x ∈ r ↔ (x ∈ st2.votes ∧ x.user = user ∧ x.option ∈ data.map Prod.fst)) ∧
      (∀ w ∈ st.votes, (¬ w.user = user ∨ w.option ∉ data.map Prod.fst) →
        w ∈ st2.votes) := by
  obtain ⟨st2, r, evs, heq, -, -, -, -, -, -, hkept, -, -, -, -, hrchar⟩ :=
    save_votes_master st vid user data v hv hnodup hsub huniq hids
  refine ⟨st2, r, evs, heq, hrchar, ?_⟩
  intro w hw hcond
  rcases hkept w hw with h | ⟨hwu, s2, hs2, -⟩
  · exact h
  · rcases hcond with h | h
    · exact absurd hwu h
    · exact absurd (List.mem_map.mpr ⟨(w.option, s2), hs2, rfl⟩) h

/-- Witness for the amended C4 at a concrete second call. -/
theorem save_votes_returns_mentioned_votes_witness :
    ∃ st2 r evs, save_votes issueAfterVote1 0 9 [(2, 2)] = some (st2, r, evs) ∧
      (∀ x, x ∈ r ↔ (x ∈ st2.votes ∧ x.user = 9 ∧
        x.option ∈ ([((2 : Nat), (2 : Int))]).map Prod.fst)) ∧
      (∀ w ∈ issueAfterVote1.votes,
        (¬ w.user = 9 ∨ w.option ∉ ([((2 : Nat), (2 : Int))]).map Prod.fst) →
        w ∈ st2.votes) :=
  save_votes_returns_mentioned_votes issueAfterVote1 0 9 [(2, 2)]
    ⟨0, [⟨1, OptionType.further_discussion, none⟩, ⟨2, OptionType.no_change, none⟩,
         ⟨3, OptionType.remove_user, none⟩], none⟩
    (by decide) (by decide) (by decide)
    (by unfold UniqueVotes; decide) (by unfold IdsBelow; decide)

/-- C4 counterexample: user 9 votes on option 1, then calls again
mentioning only option 2.  The second call returns only the vote on
option 2, although the user's current votes in the round also include
the earlier vote on option 1 - the return is not the full current vote
set. -/
theorem save_votes_return_omits_prior_vote :
    save_votes freshIssue 0 9 [(1, 1)] =
      some (issueAfterVote1, [⟨4, 9, 1, 1⟩],
        [Event.stats_voted, Event.signal_issue_changed]) ∧
    save_votes issueAfterVote1 0 9 [(2, 2)] =
      some (issueAfterVote2, [⟨5, 9, 2, 2⟩],
        [Event.stats_vote_changed, Event.signal_issue_changed]) ∧
    votesInVoting issueAfterVote2
      ⟨0, [⟨1, OptionType.further_discussion, none⟩, ⟨2, OptionType.no_change, none⟩,
           ⟨3, OptionType.remove_user, none⟩], none⟩ 9 =
      [⟨4, 9, 1, 1⟩, ⟨5, 9, 2, 2⟩] ∧
    ¬ (⟨4, 9, 1, 1⟩ : Vote) ∈ [(⟨5, 9, 2, 2⟩ : Vote)] := by
  refine ⟨by decide, by decide, by decide, by decide⟩

/-- `find?` returns the unique element satisfying the predicate. -/
theorem find?_eq_some_of_unique {α : Type} (p : α → Bool) (l : List α) (x : α)
    (hx : x ∈ l) (hpx : p x = true) (huniq : ∀ y ∈ l, p y = true → y = x) :
    l.find? p = some x := by
  induction l with
  | nil => cases hx
  | cons a t ih =>
    by_cases hpa : p a = true
    · have hax : a = x := huniq a (List.mem_cons_self a t) hpa
      rw [hax, List.find?_cons_of_pos _ hpx]
    · rw [List.find?_cons_of_neg _ (by simpa using hpa)]
      have hxt : x ∈ t := by
        rcases List.mem_cons.mp hx with rfl | h
        · exact absurd hpx hpa
        · exact h
      exact ih hxt (fun y hy hpy => huniq y (List.mem_cons_of_mem a hy) hpy)

/-- When every submitted option already carries a vote with the identical
score, the `save_votes` loop changes nothing: same ledger, same id
sequence, no created rows. -/
theorem saveVotesLoop_all_match (user : Nat) (prior : List Vote) :
    ∀ (data : List (Nat × Int)) (nid : Nat) (ledger : List Vote),
    (∀ oid s, (oid, s) ∈ data →
      ∃ pv, prior.find? (fun w => decide (w.option = oid)) = some pv ∧ pv.score = s) →
    (saveVotesLoop user prior data nid ledger).1 = ledger ∧
    (saveVotesLoop user prior data nid ledger).2.1 = nid ∧
    (saveVotesLoop user prior data nid ledger).2.2.1 = [] := by
  intro data
  induction data with
  | nil =>
    intro nid ledger hall
    exact ⟨rfl, rfl, rfl⟩
  | cons hd tl ih =>
    obtain ⟨oid, s⟩ := hd
    intro nid ledger hall
    obtain ⟨pv, hfind, hscore⟩ := hall oid s (List.mem_cons_self _ _)
    have hstep : saveVotesLoop user prior ((oid, s) :: tl) nid ledger =
        ((saveVotesLoop user prior tl nid ledger).1,
         (saveVotesLoop user prior tl nid ledger).2.1,
         (saveVotesLoop user prior tl nid ledger).2.2.1,
         pv :: (saveVotesLoop user prior tl nid ledger).2.2.2) := by
      simp only [saveVotesLoop, hfind, if_pos hscore]
    rw [hstep]
    exact ih nid ledger (fun oid2 s2 h2 => hall oid2 s2 (List.mem_cons_of_mem _ h2))

/-- C6: calling `save_votes` a second time with identical `vote_data` is
idempotent: the second call leaves the state untouched (in particular it
creates zero new vote rows) and returns the same vote set as the first
call. -/
theorem save_votes_idempotent (st : IssueState) (vid user : Nat)
    (data : List (Nat × Int)) (v : Voting)
    (hv : findVoting st vid = some v)
    (hnodup : (data.map Prod.fst).Nodup)
    (hsub : ∀ oid ∈ data.map Prod.fst, oid ∈ optionIds v)
    (huniq : UniqueVotes st.votes)
    (hids : IdsBelow st.votes st.next_id)
    (st1 : IssueState) (r1 : List Vote) (evs1 : List Event)
    (h1 : save_votes st vid user data = some (st1, r1, evs1)) :
    ∃ r2 evs2, save_votes st1 vid user data = some (st1, r2, evs2) ∧
      (∀ x, x ∈ r2 ↔ x ∈ r1) := by
  obtain ⟨st2, r, evs, heq, hvotings, -, -, -, huniq2, hids2, -, -, -, hG1, hmatched, hrchar⟩ :=
    save_votes_master st vid user data v hv hnodup hsub huniq hids
  rw [heq, Option.some.injEq, Prod.mk.injEq] at h1
  obtain ⟨hst, hre⟩ := h1
  rw [Prod.mk.injEq] at hre
  obtain ⟨hr, -⟩ := hre
  rw [← hst, ← hr]
  have hv1 : findVoting st2 vid = some v := by
    rw [findVoting, hvotings]
    exact hv
  -- every submitted key has an identical-score vote in the post-call state
  have hgot : ∀ oid s, (oid, s) ∈ data →
      ∃ x ∈ st2.votes, x.user = user ∧ x.option = oid ∧ x.score = s := by
    intro oid s hmem
    by_cases hm : hasMatch (votesInVoting st v user) oid s
    · obtain ⟨pv, hp, ho, hs⟩ := hm
      obtain ⟨hkeep, -⟩ := hmatched pv hp (by rw [ho, hs]; exact hmem)
      exact ⟨pv, hkeep, ((votesInVoting_mem st v user pv).mp hp).2.1, ho, hs⟩
    · obtain ⟨x, hx, h1x, h2x, h3x, -⟩ := hG1 oid s hmem hm
      exact ⟨x, hx, h1x, h2x, h3x⟩
  have hall2 : ∀ oid s, (oid, s) ∈ data →
      ∃ pv, (votesInVoting st2 v user).find? (fun w => decide (w.option = oid)) = some pv ∧
        pv.score = s := by
    intro oid s hmem
    obtain ⟨x, hxL, hxu, hxo, hxs⟩ := hgot oid s hmem
    have hkey : oid ∈ data.map Prod.fst := List.mem_map.mpr ⟨(oid, s), hmem, rfl⟩
    have hxp : x ∈ votesInVoting st2 v user :=
      (votesInVoting_mem st2 v user x).mpr ⟨hxL, hxu, hxo ▸ hsub oid hkey⟩
    refine ⟨x, find?_eq_some_of_unique _ _ x hxp (by simpa using hxo) ?_, hxs⟩
    intro y hy hpy
    obtain ⟨hyL, hyu, -⟩ := (votesInVoting_mem st2 v user y).mp hy
    have hyo : y.option = oid := by simpa using hpy
    exact huniq2 y hyL x hxL (Or.inr ⟨hyu.trans hxu.symm, hyo.trans hxo.symm⟩)
  obtain ⟨e1, e2, e3⟩ :=
    saveVotesLoop_all_match user (votesInVoting st2 v user) data st2.next_id st2.votes hall2
  obtain ⟨evs4, hdirect⟩ : ∃ evs4, save_votes st2 vid user data =
      some ({ st2 with
                votes := (saveVotesLoop user (votesInVoting st2 v user) data
                  st2.next_id st2.votes).1,
                next_id := (saveVotesLoop user (votesInVoting st2 v user) data
                  st2.next_id st2.votes).2.1 },
            (saveVotesLoop user (votesInVoting st2 v user) data st2.next_id st2.votes).2.2.1 ++
              (saveVotesLoop user (votesInVoting st2 v user) data st2.next_id st2.votes).2.2.2,
            evs4) :=
    ⟨_, by
      simp only [save_votes, hv1, Option.bind_eq_bind, Option.some_bind]
      rfl⟩
  rw [e1, e2, e3] at hdirect
  have hsame : ({ status := st2.status, votings := st2.votings, votes := st2.votes,
                  member_present := st2.member_present,
                  next_id := st2.next_id } : IssueState) = st2 := rfl
  rw [hsame] at hdirect
  -- apply the master at the second call to characterise the returned set
  obtain ⟨st3, r3, evs3, heq3, -, -, -, -, -, -, -, -, -, -, -, hrchar3⟩ :=
    save_votes_master st2 vid user data v hv1 hnodup hsub huniq2 hids2
  rw [hdirect, Option.some.injEq, Prod.mk.injEq] at heq3
  obtain ⟨hst3, hre3⟩ := heq3
  rw [Prod.mk.injEq] at hre3
  obtain ⟨hr3, hevs3⟩ := hre3
  refine ⟨r3, evs3, ?_, ?_⟩
  · rw [hdirect, hr3, hevs3]
  · intro x
    rw [hrchar3 x, hrchar x, ← hst3]

/-- Witness for C6: after user 9 submitted scores for options 1 and 2,
resubmitting the identical data leaves the state alone and returns the
same two votes. -/
theorem save_votes_idempotent_witness :
    ∃ r2 evs2, save_votes issueAfterVote2 0 9 [(1, 1), (2, 2)] =
        some (issueAfterVote2, r2, evs2) ∧
      (∀ x, x ∈ r2 ↔ x ∈ [(⟨4, 9, 1, 1⟩ : Vote), ⟨5, 9, 2, 2⟩]) :=
  save_votes_idempotent freshIssue 0 9 [(1, 1), (2, 2)]
    ⟨0, [⟨1, OptionType.further_discussion, none⟩, ⟨2, OptionType.no_change, none⟩,
         ⟨3, OptionType.remove_user, none⟩], none⟩
    (by decide) (by decide) (by decide)
    (by unfold UniqueVotes; decide) (by unfold IdsBelow; decide)
    issueAfterVote2 [⟨4, 9, 1, 1⟩, ⟨5, 9, 2, 2⟩]
    [Event.stats_voted, Event.signal_issue_changed]
    (by decide)

/-- A round list with no open round stays without open rounds after the
replace-by-id map (the replacement is itself not open). -/
theorem countOpen_map_zero (t : List Voting) (vid : Nat) (vNew : Voting)
    (hclosed : ¬ vNew.accepted_option = none)
    (h : (t.filter (fun w => decide (w.accepted_option = none))).length = 0) :
    ((t.map (fun w => if w.id = vid then vNew else w)).filter
      (fun w => decide (w.accepted_option = none))).length = 0 := by
  induction t with
  | nil => simp
  | cons a t ih =>
    rw [List.filter_cons] at h
    by_cases ha : a.accepted_option = none
    · simp [ha] at h
    · rw [List.map_cons, List.filter_cons]
      by_cases hid : a.id = vid
      · simp only [if_pos hid, hclosed, decide_eq_true_eq, if_neg hclosed]
        exact ih (by simpa [ha] using h)
      · simp only [if_neg hid, ha, decide_eq_true_eq, if_neg ha]
        exact ih (by simpa [ha] using h)

/-- Accepting the single open round of a list with at most one open
round leaves no open round. -/
theorem countOpen_map_replace (l : List Voting) (vid : Nat) (vNew : Voting)
    (hclosed : ¬ vNew.accepted_option = none) (v : Voting)
    (hv : l.find? (fun w => decide (w.id = vid)) = some v)
    (hopen : v.accepted_option = none)
    (hle : (l.filter (fun w => decide (w.accepted_option = none))).length ≤ 1) :
    ((l.map (fun w => if w.id = vid then vNew else w)).filter
      (fun w => decide (w.accepted_option = none))).length = 0 := by
  induction l with
  | nil => simp at hv
  | cons a t ih =>
    by_cases hid : a.id = vid
    · -- the head is the accepted round
      rw [List.find?_cons_of_pos _ (by simpa using hid)] at hv
      rw [Option.some.injEq] at hv
      subst hv
      rw [List.filter_cons, if_pos (by simpa using hopen)] at hle
      rw [List.length_cons] at hle
      have ht0 : (t.filter (fun w => decide (w.accepted_option = none))).length = 0 := by
        omega
      rw [List.map_cons, if_pos hid, List.filter_cons, if_neg (by simpa using hclosed)]
      exact countOpen_map_zero t vid vNew hclosed ht0
    · rw [List.find?_cons_of_neg _ (by simpa using hid)] at hv
      have hvt : v ∈ t := List.mem_of_find?_eq_some hv
      rw [List.map_cons, if_neg hid, List.filter_cons]
      rw [List.filter_cons] at hle
      by_cases ha : a.accepted_option = none
      · -- head open and the open round v also sits in the tail: impossible
        rw [if_pos (by simpa using ha)] at hle
        have hvmem : v ∈ t.filter (fun w => decide (w.accepted_option = none)) :=
          List.mem_filter.mpr ⟨hvt, by simpa using hopen⟩
        have hpos : 0 < (t.filter (fun w => decide (w.accepted_option = none))).length :=
          List.length_pos.mpr (List.ne_nil_of_mem hvmem)
        rw [List.length_cons] at hle
        omega
      · rw [if_neg (by simpa using ha)] at hle ⊢
        exact ih hv hle

/-- Opening a replacement round adds exactly one open round. -/
theorem openRounds_further_discussion (st : IssueState) (v : Voting) :
    openRounds (further_discussion st v) = openRounds st + 1 := by
  rw [openRounds, openRounds, further_discussion]
  simp [List.filter_append]

/-- Case analysis of `Option.do_action` on a successful run. -/
theorem do_action_cases (st : IssueState) (v : Voting) (opt : VotingOption)
    (st2 : IssueState) (evs : List Event)
    (h : do_action st v opt = some (st2, evs)) :
    (opt.type = OptionType.further_discussion ∧ st2 = further_discussion st v) ∨
    (¬ opt.type = OptionType.further_discussion ∧
      st2.votings = st.votings ∧ st2.status = IssueStatus.decided) := by
  cases ht : opt.type with
  | further_discussion =>
    left
    refine ⟨rfl, ?_⟩
    simp only [do_action, ht] at h
    simp at h
    exact h.1.symm
  | no_change =>
    right
    simp only [do_action, ht] at h
    simp at h
    obtain ⟨h1, -⟩ := h
    rw [← h1]
    exact ⟨by simp [ht], rfl, rfl⟩
  | remove_user =>
    right
    by_cases hm : st.member_present = true
    · simp only [do_action, ht] at h
      simp [hm] at h
      obtain ⟨h1, -⟩ := h
      rw [← h1]
      exact ⟨by simp [ht], rfl, rfl⟩
    · simp only [do_action, ht] at h
      simp [hm] at h

/-- Effect of one tally on the open-round count: the tallied round is
accepted; only a further-discussion win opens one replacement round, and
a decisive win leaves the issue decided with no open round. -/
theorem openRounds_calculate_results (st : IssueState) (vid : Nat) (v : Voting)
    (hfind : findVoting st vid = some v)
    (hopen : v.accepted_option = none)
    (hle : openRounds st ≤ 1)
    (st2 : IssueState) (evs : List Event)
    (hcalc : calculate_results st vid = some (st2, evs)) :
    openRounds st2 ≤ 1 ∧ (st2.status = IssueStatus.ongoing → openRounds st2 = 1) := by
  simp only [calculate_results, hfind, Option.bind_eq_bind, Option.some_bind] at hcalc
  cases hacc : chooseAccepted (List.insertionSort optionLE (annotate st v)) with
  | none =>
    rw [hacc] at hcalc
    simp at hcalc
  | some acc =>
    rw [hacc] at hcalc
    simp only [Option.some_bind] at hcalc
    have hfind0 : st.votings.find? (fun w => decide (w.id = vid)) = some v := hfind
    rcases do_action_cases _ _ _ _ _ hcalc with ⟨-, hst2⟩ | ⟨-, hvoteq, hstdec⟩
    · -- further discussion: the one open round is replaced by a fresh one
      have h0 : openRounds { st with votings := st.votings.map fun w =>
          if w.id = vid
          then { v with options := annotate st v, accepted_option := some acc.id }
          else w } = 0 := by
        rw [openRounds]
        exact countOpen_map_replace st.votings vid _ (by simp) v hfind0 hopen hle
      constructor
      · rw [hst2, openRounds_further_discussion, h0]
      · intro h
        rw [hst2, openRounds_further_discussion, h0]
    · -- decisive outcome: no open round, issue decided
      have h0 : openRounds st2 = 0 := by
        rw [openRounds, hvoteq]
        exact countOpen_map_replace st.votings vid _ (by simp) v hfind0 hopen hle
      constructor
      · omega
      · intro h
        rw [hstdec] at h
        cases h

/-- C5 (amended): in every state reachable from issue creation through
vote submissions, tallies of untallied rounds, and cancellations, at
most one voting round without an accepted option exists, and exactly one
while the issue is ongoing.  (After a decisive tally the issue is
decided and no open round remains, so "exactly one in every state", as
originally claimed, fails.) -/
theorem reachable_at_most_one_open_round (st : IssueState)
    (h : ReachableIssue st) :
    openRounds st ≤ 1 ∧ (st.status = IssueStatus.ongoing → openRounds st = 1) := by
  induction h with
  | refl =>
    exact ⟨by decide, fun _ => by decide⟩
  | tail hsteps hstep ih =>
    cases hstep with
    | save_votes x1 x2 x3 x4 x5 x6 x7 =>
      obtain ⟨hvot, hstat, -⟩ := save_votes_frame _ _ _ _ _ _ _ x7
      constructor
      · rw [openRounds, hvot]
        exact ih.1
      · intro ho
        rw [hstat] at ho
        rw [openRounds, hvot]
        exact ih.2 ho
    | tally y1 y2 y3 y4 y5 y6 y7 =>
      exact openRounds_calculate_results _ y1 y2 y5 y6 ih.1 _ y4 y7
    | cancel =>
      constructor
      · exact ih.1
      · intro hc
        cases hc

/-- Witness for the amended C5 at the freshly created issue. -/
theorem reachable_at_most_one_open_round_witness :
    openRounds createIssue.1 ≤ 1 ∧
      (createIssue.1.status = IssueStatus.ongoing → openRounds createIssue.1 = 1) :=
  reachable_at_most_one_open_round createIssue.1 Relation.ReflTransGen.refl

/-- C5 counterexample: the reachable state obtained by creating an
issue, scoring the options [1, 7, 2], and tallying is decided and has
zero rounds without an accepted option, not exactly one. -/
theorem reachable_decided_zero_open_rounds :
    ReachableIssue issueDecided172 ∧ openRounds issueDecided172 = 0 := by
  have s1 : IssueStep createIssue.1 issueScored172 :=
    IssueStep.save_votes createIssue.1 0 42 [(1, 1), (2, 7), (3, 2)]
      issueScored172 [⟨4, 42, 1, 1⟩, ⟨5, 42, 2, 7⟩, ⟨6, 42, 3, 2⟩]
      [Event.stats_voted, Event.signal_issue_changed] (by decide)
  have s2 : IssueStep issueScored172 issueDecided172 :=
    IssueStep.tally issueScored172 0
      ⟨0, [⟨1, OptionType.further_discussion, none⟩, ⟨2, OptionType.no_change, none⟩,
           ⟨3, OptionType.remove_user, none⟩], none⟩
      issueDecided172 [Event.signal_issue_changed]
      (by decide) (by decide) (by decide)
  exact ⟨Relation.ReflTransGen.head s1 (Relation.ReflTransGen.head s2 Relation.ReflTransGen.refl),
    by decide⟩
